import Mathlib

/-!
# clicode: a shallow embedding of `main.go`

The editor state of `main.go` is embedded as plain data:

* a Go `string` is its sequence of bytes (`GoString`); `len`, indexing and
  slicing are byte operations, exactly as in Go;
* a Go `int` that holds a slice length, a cursor, an offset or a terminal
  dimension is a mathematical integer (`Int`), these being far from the limits
  of the machine word; the sum `e.activeBuf + direction` of `SwitchTab`, whose
  argument is any `int`, wraps at 64 bits (`wrapInt64`);
* a statement that can panic in Go (index or slice out of range) returns
  `Option`, `none` standing for the panic;
* `*Buffer` is the buffer value itself: each buffer is referenced from one
  slot of `Editor.buffers` only;
* the terminal (`tcell.Screen`) is a grid of cells written by `SetContent`,
  and a compiled `*regexp.Regexp` is the function that
  `FindAllStringIndex(line, -1)` computes.
-/

namespace Clicode

/-! ## Go strings, slices and UTF-8 -/

/-- A Go string: an immutable sequence of bytes. -/
abbrev GoString := List Nat

/-- A Go rune (`int32` code point). -/
abbrev Rune := Int

/-- The value of `utf8.RuneError`, U+FFFD. -/
def RuneError : Rune := 0xFFFD

/-- Go's `string(r)` for a rune `r`: the UTF-8 encoding of `r`, and the
encoding of U+FFFD for a surrogate or a value outside the Unicode range. -/
def encodeRune (r : Rune) : GoString :=
  if r < 0 then [0xEF, 0xBF, 0xBD]
  else
    let n := r.toNat
    if n < 0x80 then [n]
    else if n < 0x800 then [0xC0 + n / 64, 0x80 + n % 64]
    else if (0xD800 ≤ n ∧ n ≤ 0xDFFF) ∨ 0x10FFFF < n then [0xEF, 0xBF, 0xBD]
    else if n < 0x10000 then [0xE0 + n / 4096, 0x80 + n / 64 % 64, 0x80 + n % 64]
    else [0xF0 + n / 262144, 0x80 + n / 4096 % 64, 0x80 + n / 64 % 64, 0x80 + n % 64]

/-- A UTF-8 continuation byte. -/
def isCont (b : Nat) : Bool := 0x80 ≤ b && b ≤ 0xBF

/-- Go's `utf8.DecodeRuneInString` on a non-empty string: the first rune and
its width in bytes; an invalid or truncated encoding is `(RuneError, 1)`. -/
def decodeRune : GoString → Rune × Nat
  | [] => (RuneError, 0)
  | b0 :: rest =>
    if b0 < 0x80 then ((b0 : Int), 1)
    else if b0 < 0xC2 then (RuneError, 1)
    else if b0 < 0xE0 then
      match rest with
      | b1 :: _ =>
        if isCont b1 then (((b0 % 32 * 64 + b1 % 64 : Nat) : Int), 2) else (RuneError, 1)
      | _ => (RuneError, 1)
    else if b0 < 0xF0 then
      match rest with
      | b1 :: b2 :: _ =>
        let lo := if b0 = 0xE0 then 0xA0 else 0x80
        let hi := if b0 = 0xED then 0x9F else 0xBF
        if lo ≤ b1 ∧ b1 ≤ hi ∧ isCont b2 then
          (((b0 % 16 * 4096 + b1 % 64 * 64 + b2 % 64 : Nat) : Int), 3)
        else (RuneError, 1)
      | _ => (RuneError, 1)
    else if b0 < 0xF5 then
      match rest with
      | b1 :: b2 :: b3 :: _ =>
        let lo := if b0 = 0xF0 then 0x90 else 0x80
        let hi := if b0 = 0xF4 then 0x8F else 0xBF
        if lo ≤ b1 ∧ b1 ≤ hi ∧ isCont b2 ∧ isCont b3 then
          (((b0 % 8 * 262144 + b1 % 64 * 4096 + b2 % 64 * 64 + b3 % 64 : Nat) : Int), 4)
        else (RuneError, 1)
      | _ => (RuneError, 1)
    else (RuneError, 1)

/-- The loop behind `[]rune(s)`: `skip` counts the bytes of the rune being
consumed that are still ahead. -/
def toRunesAux : Nat → GoString → List Rune
  | _, [] => []
  | skip + 1, _ :: rest => toRunesAux skip rest
  | 0, b :: rest => (decodeRune (b :: rest)).1 :: toRunesAux ((decodeRune (b :: rest)).2 - 1) rest

/-- Go's `[]rune(s)`. -/
def toRunes (s : GoString) : List Rune := toRunesAux 0 s

/-- The loop behind `for x, ch := range s`: the pairs (byte offset, rune). -/
def rangeStringAux : Nat → Nat → GoString → List (Int × Rune)
  | _, _, [] => []
  | skip + 1, i, _ :: rest => rangeStringAux skip (i + 1) rest
  | 0, i, b :: rest =>
    ((i : Int), (decodeRune (b :: rest)).1)
      :: rangeStringAux ((decodeRune (b :: rest)).2 - 1) (i + 1) rest

/-- Go's `for x, ch := range s`. -/
def rangeString (s : GoString) : List (Int × Rune) := rangeStringAux 0 0 s

/-- A Go string literal, as its UTF-8 bytes. -/
def str (s : String) : GoString := s.toList.flatMap (fun c => encodeRune (c.toNat : Int))

/-- Go's `len(s)` as an `int`. -/
def len {α : Type} (xs : List α) : Int := (xs.length : Int)

/-- Go's `xs[i]`: panics outside `0 <= i < len(xs)`. -/
def index {α : Type} (xs : List α) (i : Int) : Option α :=
  if 0 ≤ i then xs[i.toNat]? else none

/-- Go's `xs[:hi]`: panics outside `0 <= hi <= len(xs)`. -/
def sliceTo {α : Type} (xs : List α) (hi : Int) : Option (List α) :=
  if 0 ≤ hi ∧ hi ≤ len xs then some (xs.take hi.toNat) else none

/-- Go's `xs[lo:]`: panics outside `0 <= lo <= len(xs)`. -/
def sliceFrom {α : Type} (xs : List α) (lo : Int) : Option (List α) :=
  if 0 ≤ lo ∧ lo ≤ len xs then some (xs.drop lo.toNat) else none

/-- Go's `xs[i] = v`: panics outside `0 <= i < len(xs)`. -/
def setIndex {α : Type} (xs : List α) (i : Int) (v : α) : Option (List α) :=
  if 0 ≤ i ∧ i < len xs then some (xs.set i.toNat v) else none

/-! ## The data model (`main.go`, lines 16-45) -/

/-- A `tcell.Style` value, identified by a number. -/
abbrev Style := Nat

/-- The struct `Buffer`. -/
structure Buffer where
  lines : List GoString
  filename : GoString
  cursorX : Int
  cursorY : Int
  offsetX : Int
  offsetY : Int
  saved : Bool
deriving DecidableEq, Repr

/-- The struct `HighlightRule`; `pattern line` is
`pattern.FindAllStringIndex(line, -1)`, the `[start, end)` byte offsets of the
matches. -/
structure HighlightRule where
  pattern : GoString → List (Int × Int)
  style : Style

/-- The struct `LanguageRules`. -/
structure LanguageRules where
  name : GoString
  rules : List HighlightRule

/-- The struct `Editor`, without its screen handle; a Go map is the function
from a key to the value stored under it, if any (`theme` gives the zero
`Style` for a missing key, as a Go map read does). -/
structure Editor where
  buffers : List Buffer
  activeBuf : Int
  status : GoString
  quit : Bool
  highlight : Bool
  languages : GoString → Option LanguageRules
  theme : GoString → Style

/-- The keys of `tcell` that `handleEditKeys` tells apart; `KeyOther` is any
other key. -/
inductive Key where
  | KeyUp | KeyDown | KeyLeft | KeyRight | KeyEnter
  | KeyBackspace | KeyBackspace2 | KeyRune | KeyOther
deriving DecidableEq, Repr

/-- A `*tcell.EventKey`: what `ev.Key()` and `ev.Rune()` return. -/
structure EventKey where
  key : Key
  rune : Rune
deriving DecidableEq, Repr

/-! ## Buffers and tabs (`main.go`, lines 181-186 and 281-315) -/

/-- The buffer literal `&Buffer{lines: []string{""}}` of `currentBuffer` and `NewTab`. -/
def emptyBuffer : Buffer :=
  { lines := [[]], filename := [], cursorX := 0, cursorY := 0,
    offsetX := 0, offsetY := 0, saved := false }

/-- `Editor.currentBuffer`: the editor (a buffer is appended when there is
none) and the buffer `e.buffers[e.activeBuf]`. -/
def Editor.currentBuffer (e : Editor) : Option (Editor × Buffer) :=
  let e1 := if len e.buffers = 0 then { e with buffers := e.buffers ++ [emptyBuffer] } else e
  (index e1.buffers e1.activeBuf).map (fun buf => (e1, buf))

/-- `Editor.NewTab`. -/
def Editor.NewTab (e : Editor) : Editor :=
  { e with
    buffers := e.buffers ++ [emptyBuffer]
    activeBuf := len (e.buffers ++ [emptyBuffer]) - 1
    status := str "New tab created" }

/-- `Editor.CloseTab`. -/
def Editor.CloseTab (e : Editor) : Option Editor :=
  if len e.buffers ≤ 1 then
    some { e with status := str "Cannot close last tab" }
  else do
    let head ← sliceTo e.buffers e.activeBuf
    let tail ← sliceFrom e.buffers (e.activeBuf + 1)
    let buffers := head ++ tail
    let activeBuf := if e.activeBuf ≥ len buffers then len buffers - 1 else e.activeBuf
    pure { e with buffers := buffers, activeBuf := activeBuf, status := str "Tab closed" }

/-- The value of a 64-bit Go `int` after an arithmetic result `x`: `x` reduced
modulo `2^64` into `[-2^63, 2^63)`. -/
def wrapInt64 (x : Int) : Int :=
  (x + 9223372036854775808) % 18446744073709551616 - 9223372036854775808

/-- `Editor.SwitchTab`; `e.activeBuf += direction` is an addition of 64-bit
`int`s. -/
def Editor.SwitchTab (e : Editor) (direction : Int) : Option Editor := do
  let moved := wrapInt64 (e.activeBuf + direction)
  let activeBuf :=
    if moved < 0 then 0
    else if moved ≥ len e.buffers then len e.buffers - 1
    else moved
  let (e1, buf) ← Editor.currentBuffer { e with activeBuf := activeBuf }
  if buf.filename ≠ [] then
    pure { e1 with status := buf.filename }
  else
    pure { e1 with status := str "New buffer" }

/-! ## Editing keys (`main.go`, lines 469-543) -/

/-- The `switch ev.Key()` of `handleEditKeys` (lines 472-528), on the buffer
`buf := e.currentBuffer()`. -/
def applyKey (ev : EventKey) (buf : Buffer) : Option Buffer :=
  match ev.key with
  | .KeyUp =>
    if buf.cursorY > 0 then do
      let cursorY := buf.cursorY - 1
      let line ← index buf.lines cursorY
      if buf.cursorX > len line then
        pure { buf with cursorY := cursorY, cursorX := len line }
      else
        pure { buf with cursorY := cursorY }
    else pure buf
  | .KeyDown =>
    if buf.cursorY < len buf.lines - 1 then do
      let cursorY := buf.cursorY + 1
      let line ← index buf.lines cursorY
      if buf.cursorX > len line then
        pure { buf with cursorY := cursorY, cursorX := len line }
      else
        pure { buf with cursorY := cursorY }
    else pure buf
  | .KeyLeft =>
    if buf.cursorX > 0 then
      pure { buf with cursorX := buf.cursorX - 1 }
    else if buf.cursorY > 0 then do
      let cursorY := buf.cursorY - 1
      let line ← index buf.lines cursorY
      pure { buf with cursorY := cursorY, cursorX := len line }
    else pure buf
  | .KeyRight => do
    let line ← index buf.lines buf.cursorY
    if buf.cursorX < len line then
      pure { buf with cursorX := buf.cursorX + 1 }
    else if buf.cursorY < len buf.lines - 1 then
      pure { buf with cursorY := buf.cursorY + 1, cursorX := 0 }
    else pure buf
  | .KeyEnter => do
    let line ← index buf.lines buf.cursorY
    let left ← sliceTo line buf.cursorX
    let right ← sliceFrom line buf.cursorX
    let lines ← setIndex buf.lines buf.cursorY left
    let head ← sliceTo lines (buf.cursorY + 1)
    let tail ← sliceFrom lines (buf.cursorY + 1)
    pure { buf with
      lines := head ++ ([right] ++ tail)
      cursorY := buf.cursorY + 1
      cursorX := 0
      saved := false }
  | .KeyBackspace | .KeyBackspace2 =>
    if buf.cursorX > 0 then do
      let line ← index buf.lines buf.cursorY
      let before ← sliceTo line (buf.cursorX - 1)
      let after ← sliceFrom line buf.cursorX
      let lines ← setIndex buf.lines buf.cursorY (before ++ after)
      pure { buf with lines := lines, cursorX := buf.cursorX - 1, saved := false }
    else if buf.cursorY > 0 then do
      let prev ← index buf.lines (buf.cursorY - 1)
      let prevLineLen := len prev
      let line ← index buf.lines buf.cursorY
      let lines ← setIndex buf.lines (buf.cursorY - 1) (prev ++ line)
      let head ← sliceTo lines buf.cursorY
      let tail ← sliceFrom lines (buf.cursorY + 1)
      pure { buf with
        lines := head ++ tail
        cursorY := buf.cursorY - 1
        cursorX := prevLineLen
        saved := false }
    else pure buf
  | .KeyRune => do
    let line ← index buf.lines buf.cursorY
    let before ← sliceTo line buf.cursorX
    let after ← sliceFrom line buf.cursorX
    let lines ← setIndex buf.lines buf.cursorY (before ++ encodeRune ev.rune ++ after)
    pure { buf with lines := lines, cursorX := buf.cursorX + 1, saved := false }
  | .KeyOther => pure buf

/-- The viewport update that ends `handleEditKeys` (lines 530-542);
`width, height` are what `e.screen.Size()` returns. -/
def updateOffsets (width height : Int) (buf : Buffer) : Buffer :=
  let buf :=
    if buf.cursorX < buf.offsetX then { buf with offsetX := buf.cursorX }
    else if buf.cursorX ≥ buf.offsetX + width then
      { buf with offsetX := buf.cursorX - width + 1 }
    else buf
  if buf.cursorY < buf.offsetY then { buf with offsetY := buf.cursorY }
  else if buf.cursorY ≥ buf.offsetY + (height - 2) then
    { buf with offsetY := buf.cursorY - (height - 2) + 1 }
  else buf

/-- The body of `handleEditKeys` on the current buffer: the key switch, then
the viewport update. -/
def handleEditKeys (width height : Int) (ev : EventKey) (buf : Buffer) : Option Buffer :=
  (applyKey ev buf).map (updateOffsets width height)

/-- `Editor.handleEditKeys`: `handleEditKeys` on `e.currentBuffer()`, written
back through the buffer pointer. -/
def Editor.handleEditKeys (e : Editor) (width height : Int) (ev : EventKey) :
    Option Editor := do
  let (e1, buf) ← Editor.currentBuffer e
  let buf1 ← Clicode.handleEditKeys width height ev buf
  let buffers ← setIndex e1.buffers e1.activeBuf buf1
  pure { e1 with buffers := buffers }

/-- One input event together with the screen size read while handling it. -/
structure Step where
  ev : EventKey
  width : Int
  height : Int
deriving DecidableEq, Repr

/-- A finite sequence of `handleEditKeys` calls on one buffer. -/
def runKeys : List Step → Buffer → Option Buffer
  | [], buf => some buf
  | s :: rest, buf => (handleEditKeys s.width s.height s.ev buf).bind (runKeys rest)

/-- The cursor test of `Editor.Draw` (lines 444-449): whether `ShowCursor` is
called. -/
def cursorShown (width height : Int) (buf : Buffer) : Bool :=
  let contentStartY : Int := 1
  let cursorScreenX := buf.cursorX - buf.offsetX
  let cursorScreenY := contentStartY + buf.cursorY - buf.offsetY
  decide (cursorScreenX ≥ 0) && decide (cursorScreenX < width) &&
    decide (cursorScreenY ≥ contentStartY) && decide (cursorScreenY < height - 1)

/-! ## Rendering a line (`main.go`, lines 364-417) -/

/-- One cell of the terminal: the rune and the style last written to it. -/
structure Cell where
  ch : Rune
  style : Style
deriving DecidableEq, Repr

/-- The cells of a `tcell.Screen`, by column and row. -/
abbrev Screen := Int → Int → Cell

/-- The call `e.screen.SetContent(x, y, ch, nil, style)`. -/
def SetContent (scr : Screen) (x y : Int) (ch : Rune) (style : Style) : Screen :=
  fun x' y' => if x' = x ∧ y' = y then ⟨ch, style⟩ else scr x' y'

/-- The scan behind `strings.LastIndex(s, ".")`: `i` is the offset of the next
byte and `best` the last offset found so far. -/
def lastIndexAux (c : Nat) : GoString → Int → Int → Int
  | [], _, best => best
  | b :: rest, i, best => lastIndexAux c rest (i + 1) (if b = c then i else best)

/-- Go's `strings.LastIndex(s, sep)` for a one-byte separator `c`: the offset
of the last `c` in `s`, or `-1`. -/
def LastIndexByte (s : GoString) (c : Nat) : Int := lastIndexAux c s 0 (-1)

/-- Go's `strings.ToLower` on the ASCII letters. Go also lowers the letters
outside ASCII, two of them into ASCII (U+0130 to `i`, U+212A to `k`); none
becomes a letter of `go`, `c`, `cob`, `cbl` or `cobol`, so the comparisons of
`DrawLine` come out the same. -/
def ToLower (s : GoString) : GoString :=
  s.map (fun b => if 0x41 ≤ b ∧ b ≤ 0x5A then b + 32 else b)

/-- The expression `strings.ToLower(buf.filename[strings.LastIndex(buf.filename, ".")+1:])`
of `DrawLine` (line 374). -/
def fileExt (filename : GoString) : Option GoString :=
  (sliceFrom filename (LastIndexByte filename 0x2E + 1)).map ToLower

/-- The `switch ext` of `DrawLine` (lines 375-382): the key of `e.languages`
that is read, if any. -/
def languageKey (ext : GoString) : Option GoString :=
  if ext = str "go" then some (str "go")
  else if ext = str "c" then some (str "c")
  else if ext = str "cob" ∨ ext = str "cbl" ∨ ext = str "cobol" then some (str "cobol")
  else none

/-- The language selection of `DrawLine` (lines 370-383): the key that is
looked up for a buffer called `filename`; `none` when no lookup happens;
the outer `none` is a panic. -/
def selectKey (highlight : Bool) (filename : GoString) : Option (Option GoString) :=
  if highlight ∧ filename ≠ [] then (fileExt filename).map languageKey
  else some none

/-- The pair `langRules, ok` of `DrawLine` after line 383. -/
def selectLanguage (e : Editor) (filename : GoString) : Option (Option LanguageRules) :=
  (selectKey e.highlight filename).map (fun k => k.bind e.languages)

/-- The loop `for x, ch := range line` of `DrawLine` (lines 387-392). -/
def drawPlain (width y : Int) (line : GoString) (style : Style) (scr : Screen) : Screen :=
  ((rangeString line).takeWhile (fun p => decide (p.1 < width))).foldl
    (fun s p => SetContent s p.1 y p.2 style) scr

/-- The loop `for x := lo; x < hi && x < width; x++` writing `runes[x]` in
`style` (lines 398-400 and 412-414). -/
def paintRange (runes : List Rune) (width y : Int) (style : Style) (lo hi : Int)
    (scr : Screen) : Option Screen :=
  (List.range (min hi width - lo).toNat).foldlM
    (fun (s : Screen) (k : Nat) =>
      (index runes (lo + (k : Int))).map (fun ch => SetContent s (lo + (k : Int)) y ch style))
    scr

/-- The body of `for _, match := range matches` (lines 405-415). -/
def applyMatch (runes : List Rune) (width y : Int) (style : Style) (scr : Screen)
    (m : Int × Int) : Option Screen :=
  let start := m.1
  let stop := m.2
  if start < 0 ∨ stop > len runes ∨ start ≥ stop then some scr
  else paintRange runes width y style start stop scr

/-- The body of `for _, rule := range langRules.rules` (lines 403-416). -/
def applyRule (line : GoString) (runes : List Rune) (width y : Int) (scr : Screen)
    (rule : HighlightRule) : Option Screen :=
  (rule.pattern line).foldlM (applyMatch runes width y rule.style) scr

/-- The highlighting path of `DrawLine` (lines 396-416). -/
def drawHighlighted (rules : List HighlightRule) (width y : Int) (line : GoString)
    (defaultStyle : Style) (scr : Screen) : Option Screen := do
  let runes := toRunes line
  let scr ← paintRange runes width y defaultStyle 0 (len runes) scr
  rules.foldlM (applyRule line runes width y) scr

/-- `Editor.DrawLine`, with `width` the width that `e.screen.Size()` returns. -/
def Editor.DrawLine (e : Editor) (width y : Int) (line : GoString) (scr : Screen) :
    Option (Editor × Screen) := do
  let (e1, buf) ← Editor.currentBuffer e
  let defaultStyle := e1.theme (str "background")
  let sel ← selectLanguage e1 buf.filename
  match sel with
  | none => pure (e1, drawPlain width y line defaultStyle scr)
  | some langRules =>
    if !e1.highlight then pure (e1, drawPlain width y line defaultStyle scr)
    else do
      let scr ← drawHighlighted langRules.rules width y line defaultStyle scr
      pure (e1, scr)

/-! ### What the specification says of `DrawLine` -/

/-- Whether the match `m` covers column `x`: `start <= x < end`. -/
def covers (m : Int × Int) (x : Int) : Bool := decide (m.1 ≤ x) && decide (x < m.2)

/-- Whether the guard of line 408 lets the match `m` through on a line of `n`
runes. -/
def kept (n : Int) (m : Int × Int) : Bool :=
  !(decide (m.1 < 0) || decide (m.2 > n) || decide (m.1 ≥ m.2))

/-- The style of the last rule, in rule-set order, that has a match
covering column `x`, and `defaultStyle` when no rule has one. -/
def lastMatchStyle (rules : List HighlightRule) (line : GoString) (defaultStyle : Style)
    (x : Int) : Style :=
  match rules.reverse.find? (fun r => (r.pattern line).any (fun m => covers m x)) with
  | some r => r.style
  | none => defaultStyle

/-- The style of the last rule, in rule-set order, that has a match
covering column `x` and ending within the `n` runes of the line, and
`defaultStyle` when no rule has one. -/
def lastKeptStyle (rules : List HighlightRule) (line : GoString) (n : Int)
    (defaultStyle : Style) (x : Int) : Style :=
  match rules.reverse.find? (fun r => (r.pattern line).any (fun m => kept n m && covers m x)) with
  | some r => r.style
  | none => defaultStyle

/-- The rune of column `x` (0 when the line is shorter). -/
def runeAt (runes : List Rune) (x : Int) : Rune := runes.getD x.toNat 0

/-- The rule `r` without the matches that end past the `n` runes of the line. -/
def dropOverlong (n : Int) (r : HighlightRule) : HighlightRule :=
  { pattern := fun line => (r.pattern line).filter (fun m => decide (m.2 ≤ n))
    style := r.style }

/-- Whether the file name `name` ends in `suffix`, letter case aside. -/
def endsWithFold (name suffix : GoString) : Bool := decide (suffix <:+ ToLower name)

/-- The language selection the specification describes, by the suffix of the
file name alone: the key of the rule set, if any. -/
def suffixLanguage (filename : GoString) : Option GoString :=
  if endsWithFold filename (str ".go") then some (str "go")
  else if endsWithFold filename (str ".c") then some (str "c")
  else if endsWithFold filename (str ".cob") ∨ endsWithFold filename (str ".cbl") ∨
      endsWithFold filename (str ".cobol") then some (str "cobol")
  else none

/-! ### Concrete rules and screens -/

/-- The offset of the first `//` that no newline follows, scanning from
offset `i`. -/
def findLineComment : GoString → Nat → Option Nat
  | [], _ => none
  | a :: rest, i =>
    match rest with
    | b :: after =>
      if a = 0x2F ∧ b = 0x2F ∧ ¬ (0x0A ∈ after) then some i
      else findLineComment rest (i + 1)
    | [] => none

/-- The function `FindAllStringIndex(line, -1)` of the first Go and C rule,
`regexp.MustCompile("//.*$")`: one match, from the first `//` that no newline
follows to the end of the text. -/
def commentPattern (line : GoString) : List (Int × Int) :=
  match findLineComment line 0 with
  | some i => [((i : Int), len line)]
  | none => []

/-- The scan behind `stringPattern`: `i` is the offset of the next byte and
`start` the offset of a `"` that is still open. A newline, which `.` does
not match, drops the open quote. -/
def stringScan : GoString → Nat → Option Nat → List (Int × Int)
  | [], _, _ => []
  | b :: rest, i, none =>
    if b = 0x22 then stringScan rest (i + 1) (some i) else stringScan rest (i + 1) none
  | b :: rest, i, some start =>
    if b = 0x22 then ((start : Int), ((i + 1 : Nat) : Int)) :: stringScan rest (i + 1) none
    else if b = 0x0A then stringScan rest (i + 1) none
    else stringScan rest (i + 1) (some start)

/-- The function `FindAllStringIndex(line, -1)` of the Go and C rule whose
pattern is `".*?"`: each `"` that is not inside a match and has a later `"`
before any newline matches up to that `"`. -/
def stringPattern (line : GoString) : List (Int × Int) := stringScan line 0 none

/-- The screen after `e.screen.Fill(' ', style)`. -/
def blankScreen (style : Style) : Screen := fun _ _ => ⟨0x20, style⟩

/-- An editor with one saved buffer called `filename`, highlighting on, whose
Go rule set is the rule `{"//.*$", comment}` that opens `setupGoHighlightRules`;
the styles are numbered: 1 for `theme["background"]`, 5 for `theme["comment"]`. -/
def commentEditor (filename : GoString) : Editor :=
  { buffers := [{ emptyBuffer with filename := filename, saved := true }]
    activeBuf := 0
    status := []
    quit := false
    highlight := true
    languages := fun k =>
      if k = str "go" then some { name := str "Go", rules := [⟨commentPattern, 5⟩] } else none
    theme := fun k =>
      if k = str "background" then 1 else if k = str "comment" then 5 else 0 }

/-- The comment rule (pattern `//.*$`) and the string rule (pattern `".*?"`) of
`setupGoHighlightRules`, in their order there, with the styles numbered 5 for
`theme["comment"]` and 4 for `theme["string"]`. -/
def commentStringRules : List HighlightRule := [⟨commentPattern, 5⟩, ⟨stringPattern, 4⟩]

/-- An editor with one saved buffer called `filename`, highlighting on, whose
Go rule set is `commentStringRules`; `theme["background"]` is the style 1. -/
def commentStringEditor (filename : GoString) : Editor :=
  { buffers := [{ emptyBuffer with filename := filename, saved := true }]
    activeBuf := 0
    status := []
    quit := false
    highlight := true
    languages := fun k =>
      if k = str "go" then some { name := str "Go", rules := commentStringRules } else none
    theme := fun k =>
      if k = str "background" then 1
      else if k = str "string" then 4
      else if k = str "comment" then 5
      else 0 }

/-! ## Invariants -/

/-- The line of row `i` (the empty line when the row is out of range). -/
def Buffer.lineAt (b : Buffer) (i : Int) : GoString := b.lines.getD i.toNat []

/-- The line under the cursor (the empty line when the row is out of range). -/
def Buffer.curLine (b : Buffer) : GoString := b.lines.getD b.cursorY.toNat []

/-- The cursor invariant with `len` as the code computes it, in bytes:
`0 <= cursorY < len(lines)` and `0 <= cursorX <= len(lines[cursorY])`. -/
def Inv (b : Buffer) : Prop :=
  1 ≤ len b.lines ∧ 0 ≤ b.cursorY ∧ b.cursorY < len b.lines ∧
    0 ≤ b.cursorX ∧ b.cursorX ≤ len b.curLine

instance (b : Buffer) : Decidable (Inv b) := by unfold Inv; infer_instance

/-- The cursor invariant with the length of a line counted in code points,
`len([]rune(line))`. -/
def InvRunes (b : Buffer) : Prop :=
  1 ≤ len b.lines ∧ 0 ≤ b.cursorY ∧ b.cursorY < len b.lines ∧
    0 ≤ b.cursorX ∧ b.cursorX ≤ len (toRunes b.curLine)

instance (b : Buffer) : Decidable (InvRunes b) := by unfold InvRunes; infer_instance

/-! ## Go slices indexed by natural numbers -/

theorem index_nat {α : Type} (xs : List α) (n : Nat) : index xs (n : Int) = xs[n]? := by
  simp [index]

theorem sliceTo_nat {α : Type} (xs : List α) (n : Nat) (h : n ≤ xs.length) :
    sliceTo xs (n : Int) = some (xs.take n) := by
  simp [sliceTo, len, h]

theorem sliceFrom_nat {α : Type} (xs : List α) (n : Nat) (h : n ≤ xs.length) :
    sliceFrom xs (n : Int) = some (xs.drop n) := by
  simp [sliceFrom, len, h]

theorem setIndex_nat {α : Type} (xs : List α) (n : Nat) (v : α) (h : n < xs.length) :
    setIndex xs (n : Int) v = some (xs.set n v) := by
  simp [setIndex, len, h]

theorem encodeRune_length_pos (r : Rune) : 1 ≤ (encodeRune r).length := by
  unfold encodeRune
  split
  · simp
  · simp only []
    split_ifs <;> simp

/-! ## Every key keeps the cursor invariant -/

/-- The key switch returns on a buffer that satisfies the invariant, keeps
the invariant and leaves the offsets alone. -/
theorem applyKey_inv (ev : EventKey) (b : Buffer) (h : Inv b) :
    ∃ b', applyKey ev b = some b' ∧ Inv b' ∧
      b'.offsetX = b.offsetX ∧ b'.offsetY = b.offsetY := by
  obtain ⟨lines, fn, cx, cy, ox, oy, sv⟩ := b
  obtain ⟨k, r⟩ := ev
  simp only [Inv, Buffer.curLine, len] at h
  obtain ⟨h1, h2, h3, h4, h5⟩ := h
  obtain ⟨n, rfl⟩ := Int.eq_ofNat_of_zero_le h2
  obtain ⟨m, rfl⟩ := Int.eq_ofNat_of_zero_le h4
  simp only [Int.toNat_ofNat, Nat.cast_lt, Nat.cast_le] at h3 h5
  have hl : lines.getD n [] = lines[n] := by simp [List.getD, h3]
  rw [hl] at h5
  cases k
  · -- KeyUp
    simp only [applyKey]
    split
    · rename_i hpos
      obtain ⟨n', rfl⟩ : ∃ n', n = n' + 1 := ⟨n - 1, by omega⟩
      have e1 : ((n' + 1 : Nat) : Int) - 1 = (n' : Int) := by push_cast; ring
      have hn' : n' < lines.length := by omega
      simp only [e1, index_nat, List.getElem?_eq_getElem hn', Option.bind_eq_bind, Option.some_bind, Option.pure_def]
      split
      · refine ⟨_, rfl, ?_⟩
        simp [Inv, Buffer.curLine, len, hn']
        omega
      · refine ⟨_, rfl, ?_⟩
        rename_i hle
        simp [Inv, Buffer.curLine, len, hn'] at hle ⊢
        omega
    · exact ⟨_, rfl, by simp [Inv, Buffer.curLine, len, hl, h3, h5]; omega⟩
  · -- KeyDown
    simp only [applyKey, len]
    split
    · rename_i hlt
      have hn' : n + 1 < lines.length := by omega
      have e1 : (n : Int) + 1 = ((n + 1 : Nat) : Int) := by push_cast; ring
      simp only [e1, index_nat, List.getElem?_eq_getElem hn', Option.bind_eq_bind,
        Option.some_bind, Option.pure_def]
      split
      · refine ⟨_, rfl, ?_⟩
        simp [Inv, Buffer.curLine, len, hn']
        omega
      · refine ⟨_, rfl, ?_⟩
        rename_i hle
        simp [Inv, Buffer.curLine, len, hn'] at hle ⊢
        omega
    · exact ⟨_, rfl, by simp [Inv, Buffer.curLine, len, hl, h3, h5]; omega⟩
  · -- KeyLeft
    simp only [applyKey]
    split
    · refine ⟨_, rfl, ?_⟩
      simp [Inv, Buffer.curLine, len, hl, h3]
      omega
    · split
      · obtain ⟨n', rfl⟩ : ∃ n', n = n' + 1 := ⟨n - 1, by omega⟩
        have e1 : ((n' + 1 : Nat) : Int) - 1 = (n' : Int) := by push_cast; ring
        have hn' : n' < lines.length := by omega
        simp only [e1, index_nat, List.getElem?_eq_getElem hn', Option.bind_eq_bind,
          Option.some_bind, Option.pure_def]
        refine ⟨_, rfl, ?_⟩
        simp [Inv, Buffer.curLine, len, hn']
        omega
      · exact ⟨_, rfl, by simp [Inv, Buffer.curLine, len, hl, h3, h5]; omega⟩
  · -- KeyRight
    simp only [applyKey, index_nat, List.getElem?_eq_getElem h3, Option.bind_eq_bind,
      Option.some_bind, Option.pure_def, len]
    split
    · refine ⟨_, rfl, ?_⟩
      simp [Inv, Buffer.curLine, len, hl, h3]
      omega
    · split
      · refine ⟨_, rfl, ?_⟩
        simp [Inv, Buffer.curLine, len]
        omega
      · exact ⟨_, rfl, by simp [Inv, Buffer.curLine, len, hl, h3, h5]; omega⟩
  · -- KeyEnter
    have e1 : (n : Int) + 1 = ((n + 1 : Nat) : Int) := by push_cast; ring
    simp only [applyKey, index_nat, List.getElem?_eq_getElem h3, Option.bind_eq_bind,
      Option.some_bind, Option.pure_def, sliceTo_nat _ m h5, sliceFrom_nat _ m h5,
      setIndex_nat _ n _ h3, e1]
    rw [sliceTo_nat _ (n + 1) (by simp; omega), sliceFrom_nat _ (n + 1) (by simp; omega)]
    refine ⟨_, rfl, ?_⟩
    simp [Inv, Buffer.curLine, len]
    omega
  case KeyBackspace | KeyBackspace2 =>
    simp only [applyKey]
    split
    · rename_i hpos
      obtain ⟨m', rfl⟩ : ∃ m', m = m' + 1 := ⟨m - 1, by omega⟩
      have e1 : ((m' + 1 : Nat) : Int) - 1 = (m' : Int) := by push_cast; ring
      simp only [index_nat, List.getElem?_eq_getElem h3, Option.bind_eq_bind,
        Option.some_bind, Option.pure_def, e1, sliceTo_nat lines[n] m' (by omega),
        sliceFrom_nat _ (m' + 1) h5, setIndex_nat _ n _ h3]
      refine ⟨_, rfl, ?_⟩
      simp [Inv, Buffer.curLine, len, h3]
      omega
    · split
      · obtain ⟨n', rfl⟩ : ∃ n', n = n' + 1 := ⟨n - 1, by omega⟩
        have e1 : ((n' + 1 : Nat) : Int) - 1 = (n' : Int) := by push_cast; ring
        have e2 : ((n' + 1 : Nat) : Int) + 1 = ((n' + 2 : Nat) : Int) := by push_cast; ring
        have hn' : n' < lines.length := by omega
        simp only [e1, e2, index_nat, List.getElem?_eq_getElem hn',
          List.getElem?_eq_getElem h3, Option.bind_eq_bind,
          Option.some_bind, Option.pure_def, setIndex_nat _ n' _ hn']
        rw [sliceTo_nat _ (n' + 1) (by simp; omega), sliceFrom_nat _ (n' + 2) (by simp; omega)]
        refine ⟨_, rfl, ?_⟩
        simp [Inv, Buffer.curLine, len, hn', List.getElem?_append_left, List.getElem?_take]
        omega
      · exact ⟨_, rfl, by simp [Inv, Buffer.curLine, len, hl, h3, h5]; omega⟩
  case KeyRune =>
    simp only [applyKey, index_nat, List.getElem?_eq_getElem h3, Option.bind_eq_bind,
      Option.some_bind, Option.pure_def, sliceTo_nat _ m h5, sliceFrom_nat _ m h5,
      setIndex_nat _ n _ h3]
    refine ⟨_, rfl, ?_⟩
    have := encodeRune_length_pos r
    simp [Inv, Buffer.curLine, len, h3]
    omega
  case KeyOther =>
    exact ⟨_, rfl, by simp [Inv, Buffer.curLine, len, hl, h3, h5]; omega⟩

/-! ## The viewport update keeps everything but the offsets -/

theorem updateOffsets_lines (w h : Int) (b : Buffer) : (updateOffsets w h b).lines = b.lines := by
  simp only [updateOffsets]; split_ifs <;> rfl

theorem updateOffsets_cursorX (w h : Int) (b : Buffer) :
    (updateOffsets w h b).cursorX = b.cursorX := by
  simp only [updateOffsets]; split_ifs <;> rfl

theorem updateOffsets_cursorY (w h : Int) (b : Buffer) :
    (updateOffsets w h b).cursorY = b.cursorY := by
  simp only [updateOffsets]; split_ifs <;> rfl

theorem updateOffsets_saved (w h : Int) (b : Buffer) : (updateOffsets w h b).saved = b.saved := by
  simp only [updateOffsets]; split_ifs <;> rfl

theorem updateOffsets_inv (w h : Int) (b : Buffer) (hb : Inv b) : Inv (updateOffsets w h b) := by
  simpa [Inv, Buffer.curLine, updateOffsets_lines, updateOffsets_cursorX,
    updateOffsets_cursorY] using hb

theorem handleEditKeys_inv (w h : Int) (ev : EventKey) (b : Buffer) (hb : Inv b) :
    ∃ b', handleEditKeys w h ev b = some b' ∧ Inv b' := by
  obtain ⟨b1, h1, hi, -⟩ := applyKey_inv ev b hb
  exact ⟨updateOffsets w h b1, by simp [handleEditKeys, h1], updateOffsets_inv w h b1 hi⟩

/-! ## Code points and bytes -/

theorem toRunesAux_length_le (s : GoString) : ∀ skip, (toRunesAux skip s).length ≤ s.length := by
  induction s with
  | nil => intro skip; simp [toRunesAux]
  | cons b rest ih =>
    intro skip
    cases skip with
    | zero =>
      simp only [toRunesAux, List.length_cons]
      have := ih ((decodeRune (b :: rest)).2 - 1)
      omega
    | succ k =>
      simp only [toRunesAux, List.length_cons]
      have := ih k
      omega

/-- A line has at most as many code points as bytes. -/
theorem toRunes_length_le (s : GoString) : len (toRunes s) ≤ len s := by
  have := toRunesAux_length_le s 0
  simp only [len, toRunes]
  omega

/-- The cursor invariant counted in code points gives the one counted in bytes. -/
theorem InvRunes.toInv {b : Buffer} (h : InvRunes b) : Inv b := by
  obtain ⟨h1, h2, h3, h4, h5⟩ := h
  exact ⟨h1, h2, h3, h4, le_trans h5 (toRunes_length_le _)⟩

/-! ## C1: the cursor invariant under editing -/

/-- C1 (as amended): with `len` counted in bytes, as the code counts it,
every finite sequence of `handleEditKeys` events on a buffer that satisfies the
cursor invariant runs without a panic and ends in a buffer that has at least
one line and satisfies `0 <= cursorY < len(lines)` and
`0 <= cursorX <= len(lines[cursorY])`. -/
theorem runKeys_preserves_Inv (steps : List Step) (b : Buffer) (hb : Inv b) :
    ∃ b', runKeys steps b = some b' ∧ Inv b' := by
  induction steps generalizing b with
  | nil => exact ⟨b, rfl, hb⟩
  | cons s rest ih =>
    obtain ⟨b1, h1, hi⟩ := handleEditKeys_inv s.width s.height s.ev b hb
    obtain ⟨b2, h2, hi2⟩ := ih b1 hi
    exact ⟨b2, by simp [runKeys, h1, h2], hi2⟩

/-- The invariant theorem at work: one line `é`, then Right, `x`, Enter,
Backspace, Up. -/
theorem runKeys_preserves_Inv_witness :
    Inv { emptyBuffer with lines := [[0xC3, 0xA9]] } ∧
      ∃ b', runKeys
        [⟨⟨.KeyRight, 0⟩, 80, 24⟩, ⟨⟨.KeyRune, 0x78⟩, 80, 24⟩, ⟨⟨.KeyEnter, 0⟩, 80, 24⟩,
          ⟨⟨.KeyBackspace, 0⟩, 80, 24⟩, ⟨⟨.KeyUp, 0⟩, 80, 24⟩]
        { emptyBuffer with lines := [[0xC3, 0xA9]] } = some b' ∧ Inv b' :=
  ⟨by decide, runKeys_preserves_Inv _ _ (by decide)⟩

/-- C1 (as stated) fails: the one line `é` (bytes C3 A9, one code point) with
the cursor at (0,0) satisfies the invariant counted in code points; after
Right, Right the cursor column is 2, beyond the one code point of the line. -/
theorem runKeys_breaks_InvRunes :
    InvRunes { emptyBuffer with lines := [[0xC3, 0xA9]] } ∧
      runKeys [⟨⟨.KeyRight, 0⟩, 80, 24⟩, ⟨⟨.KeyRight, 0⟩, 80, 24⟩]
        { emptyBuffer with lines := [[0xC3, 0xA9]] }
        = some { emptyBuffer with lines := [[0xC3, 0xA9]], cursorX := 2 } ∧
      len (toRunes [0xC3, 0xA9]) = 1 ∧
      ¬ InvRunes { emptyBuffer with lines := [[0xC3, 0xA9]], cursorX := 2 } := by
  decide

/-! ## The editing keys on a buffer split at the cursor row -/

/-- A buffer that satisfies the invariant is `above ++ line :: below` with
the cursor on `line`. -/
theorem Inv.split {b : Buffer} (h : Inv b) :
    ∃ (above : List GoString) (line : GoString) (below : List GoString) (m : Nat),
      b.lines = above ++ line :: below ∧ b.cursorY = (above.length : Int) ∧
        b.cursorX = (m : Int) ∧ m ≤ line.length ∧ b.curLine = line := by
  obtain ⟨_, h2, h3, h4, h5⟩ := h
  obtain ⟨n, hn⟩ := Int.eq_ofNat_of_zero_le h2
  obtain ⟨m, hm⟩ := Int.eq_ofNat_of_zero_le h4
  have hlt : n < b.lines.length := by
    simp only [len, hn] at h3; exact_mod_cast h3
  have hcur : b.curLine = b.lines[n] := by
    simp [Buffer.curLine, hn, List.getD, hlt]
  refine ⟨b.lines.take n, b.lines[n], b.lines.drop (n + 1), m, ?_, ?_, hm, ?_, hcur⟩
  · simp
  · simp [hn, List.length_take, Nat.min_eq_left (Nat.le_of_lt hlt)]
  · rw [hcur, hm] at h5
    simp only [len] at h5
    exact_mod_cast h5

theorem index_split {α : Type} (above : List α) (x : α) (below : List α) :
    index (above ++ x :: below) (above.length : Int) = some x := by
  rw [index_nat, List.getElem?_append_right (le_refl _)]
  simp

theorem applyKey_enter (b : Buffer) (r : Rune) (above below : List GoString)
    (line : GoString) (m : Nat) (hl : b.lines = above ++ line :: below)
    (hy : b.cursorY = (above.length : Int)) (hx : b.cursorX = (m : Int))
    (hm : m ≤ line.length) :
    applyKey ⟨.KeyEnter, r⟩ b = some { b with
      lines := above ++ line.take m :: line.drop m :: below
      cursorY := (above.length : Int) + 1
      cursorX := 0
      saved := false } := by
  have e1 : (above.length : Int) + 1 = ((above.length + 1 : Nat) : Int) := by push_cast; ring
  simp only [applyKey, hl, hy, hx, index_split, Option.bind_eq_bind, Option.some_bind,
    Option.pure_def, sliceTo_nat _ m hm, sliceFrom_nat _ m hm,
    setIndex_nat (above ++ line :: below) above.length _ (by simp)]
  rw [e1, sliceTo_nat _ (above.length + 1) (by simp), sliceFrom_nat _ (above.length + 1) (by simp)]
  simp [List.take_append_eq_append_take, List.drop_append_eq_append_drop,
    List.take_of_length_le, List.drop_eq_nil_of_le]

theorem applyKey_backspace_join (b : Buffer) (k : Key) (r : Rune)
    (hk : k = .KeyBackspace ∨ k = .KeyBackspace2) (above below : List GoString)
    (prev line : GoString) (hl : b.lines = above ++ prev :: line :: below)
    (hy : b.cursorY = (above.length : Int) + 1) (hx : b.cursorX = 0) :
    applyKey ⟨k, r⟩ b = some { b with
      lines := above ++ (prev ++ line) :: below
      cursorY := (above.length : Int)
      cursorX := len prev
      saved := false } := by
  have e1 : (above.length : Int) + 1 - 1 = ((above.length : Nat) : Int) := by ring
  have e2 : (above.length : Int) + 1 = ((above.length + 1 : Nat) : Int) := by push_cast; ring
  have e3 : (above.length : Int) + 1 + 1 = ((above.length + 2 : Nat) : Int) := by push_cast; ring
  have hcur : index (above ++ prev :: line :: below) ((above.length + 1 : Nat) : Int)
      = some line := by
    rw [index_nat, List.getElem?_append_right (by omega)]
    simp
  have hpos : (above.length : Int) + 1 > 0 := by omega
  rcases hk with rfl | rfl <;>
  · simp only [applyKey, hl, hy, hx, lt_irrefl, gt_iff_lt, if_false, hpos, if_true, e1, e3,
      index_split, Option.bind_eq_bind, Option.some_bind, Option.pure_def,
      setIndex_nat (above ++ prev :: line :: below) above.length _ (by simp)]
    rw [e2, hcur]
    simp only [Option.some_bind]
    rw [sliceTo_nat _ (above.length + 1) (by simp), sliceFrom_nat _ (above.length + 2) (by simp)]
    simp [List.take_append_eq_append_take, List.drop_append_eq_append_drop,
    List.take_of_length_le, List.drop_eq_nil_of_le]

theorem applyKey_backspace_char (b : Buffer) (k : Key) (r : Rune)
    (hk : k = .KeyBackspace ∨ k = .KeyBackspace2) (above below : List GoString)
    (line : GoString) (m : Nat) (hl : b.lines = above ++ line :: below)
    (hy : b.cursorY = (above.length : Int)) (hx : b.cursorX = (m : Int) + 1)
    (hm : m + 1 ≤ line.length) :
    applyKey ⟨k, r⟩ b = some { b with
      lines := above ++ (line.take m ++ line.drop (m + 1)) :: below
      cursorX := (m : Int)
      saved := false } := by
  have e1 : (m : Int) + 1 - 1 = (m : Int) := by ring
  have e2 : (m : Int) + 1 = ((m + 1 : Nat) : Int) := by push_cast; ring
  have hpos : (m : Int) + 1 > 0 := by omega
  rcases hk with rfl | rfl <;>
  · simp only [applyKey, hl, hy, hx, hpos, if_true, e1, index_split, Option.bind_eq_bind,
      Option.some_bind, Option.pure_def, sliceTo_nat line m (by omega)]
    rw [e2, sliceFrom_nat line (m + 1) hm]
    simp only [Option.some_bind]
    rw [setIndex_nat (above ++ line :: below) above.length _ (by simp)]
    simp

theorem applyKey_rune (b : Buffer) (r : Rune) (above below : List GoString)
    (line : GoString) (m : Nat) (hl : b.lines = above ++ line :: below)
    (hy : b.cursorY = (above.length : Int)) (hx : b.cursorX = (m : Int))
    (hm : m ≤ line.length) :
    applyKey ⟨.KeyRune, r⟩ b = some { b with
      lines := above ++ (line.take m ++ encodeRune r ++ line.drop m) :: below
      cursorX := (m : Int) + 1
      saved := false } := by
  simp only [applyKey, hl, hy, hx, index_split, Option.bind_eq_bind, Option.some_bind,
    Option.pure_def, sliceTo_nat _ m hm, sliceFrom_nat _ m hm,
    setIndex_nat (above ++ line :: below) above.length _ (by simp)]
  simp

/-! ## C2: Enter, then Backspace -/

/-- C2: on every buffer that satisfies the cursor invariant, Enter and then
Backspace (either Backspace key, whatever the screen sizes) both return, and
leave exactly the original lines and the original cursor `(cursorX, cursorY)`. -/
theorem enter_backspace_roundtrip (b : Buffer) (w1 h1 w2 h2 : Int) (r1 r2 : Rune) (k : Key)
    (hk : k = .KeyBackspace ∨ k = .KeyBackspace2) (hb : Inv b) :
    ∃ b1 b2, handleEditKeys w1 h1 ⟨.KeyEnter, r1⟩ b = some b1 ∧
      handleEditKeys w2 h2 ⟨k, r2⟩ b1 = some b2 ∧
      b2.lines = b.lines ∧ b2.cursorX = b.cursorX ∧ b2.cursorY = b.cursorY := by
  obtain ⟨above, line, below, m, hl, hy, hx, hm, -⟩ := hb.split
  have hE := applyKey_enter b r1 above below line m hl hy hx hm
  have hB := applyKey_backspace_join
    (updateOffsets w1 h1 { b with
      lines := above ++ line.take m :: line.drop m :: below
      cursorY := (above.length : Int) + 1
      cursorX := 0
      saved := false }) k r2 hk above below (line.take m) (line.drop m)
    (by rw [updateOffsets_lines]) (by rw [updateOffsets_cursorY]) (by rw [updateOffsets_cursorX])
  refine ⟨_, _, by simp only [handleEditKeys, hE, Option.map_some']; rfl,
    by simp only [handleEditKeys, hB, Option.map_some']; rfl, ?_, ?_, ?_⟩
  · rw [updateOffsets_lines, hl]; simp
  · rw [updateOffsets_cursorX, hx]; simp [len, Nat.min_eq_left hm]
  · rw [updateOffsets_cursorY, hy]

/-- The round trip at work: the line `ab` split between `a` and `b`, and
joined again. -/
theorem enter_backspace_roundtrip_witness :
    Inv { emptyBuffer with lines := [[0x61, 0x62]], cursorX := 1 } ∧
      ∃ b1 b2,
        handleEditKeys 80 24 ⟨.KeyEnter, 0⟩
          { emptyBuffer with lines := [[0x61, 0x62]], cursorX := 1 } = some b1 ∧
        handleEditKeys 80 24 ⟨.KeyBackspace, 0⟩ b1 = some b2 ∧
        b2.lines = [[0x61, 0x62]] ∧ b2.cursorX = 1 ∧ b2.cursorY = 0 :=
  ⟨by decide, enter_backspace_roundtrip _ 80 24 80 24 0 0 .KeyBackspace (Or.inl rfl) (by decide)⟩

/-! ## C3: a rune, then Backspace -/

/-- C3 at a two-byte rune: typing `é` (U+00E9) into the empty buffer and
pressing Backspace leaves the line holding the byte A9, the second byte of
the rune, where the claim has the empty line; the buffer is dirty. -/
theorem rune_backspace_leaves_byte :
    runKeys [⟨⟨.KeyRune, 0xE9⟩, 80, 24⟩, ⟨⟨.KeyBackspace, 0⟩, 80, 24⟩] emptyBuffer
      = some { emptyBuffer with lines := [[0xA9]], saved := false } ∧
    handleEditKeys 80 24 ⟨.KeyRune, 0xE9⟩ emptyBuffer
      = some { emptyBuffer with lines := [[0xC3, 0xA9]], cursorX := 1, saved := false } := by
  decide

/-- For a rune that Go encodes in one byte (`0 <= r < 0x80`), the rune and
then Backspace leave the lines and the cursor as they were, and the buffer
dirty. -/
theorem rune_backspace_roundtrip_ascii (b : Buffer) (w1 h1 w2 h2 : Int) (r r2 : Int) (k : Key)
    (hk : k = .KeyBackspace ∨ k = .KeyBackspace2) (hb : Inv b)
    (hr : 0 ≤ r ∧ r < 0x80) :
    ∃ b1 b2, handleEditKeys w1 h1 ⟨.KeyRune, r⟩ b = some b1 ∧
      handleEditKeys w2 h2 ⟨k, r2⟩ b1 = some b2 ∧
      b2.lines = b.lines ∧ b2.cursorX = b.cursorX ∧ b2.cursorY = b.cursorY ∧
      b2.saved = false := by
  obtain ⟨above, line, below, m, hl, hy, hx, hm, -⟩ := hb.split
  have henc : encodeRune r = [r.toNat] := by
    have h1 : ¬ r < 0 := by omega
    have h2 : r.toNat < 0x80 := by omega
    simp [encodeRune, h1, h2]
  have hR := applyKey_rune b r above below line m hl hy hx hm
  have hB := applyKey_backspace_char
    (updateOffsets w1 h1 { b with
      lines := above ++ (line.take m ++ encodeRune r ++ line.drop m) :: below
      cursorX := (m : Int) + 1
      saved := false }) k r2 hk above below (line.take m ++ encodeRune r ++ line.drop m) m
    (by rw [updateOffsets_lines]) (by rw [updateOffsets_cursorY]; exact hy)
    (by rw [updateOffsets_cursorX]) (by simp [henc]; omega)
  refine ⟨_, _, by simp only [handleEditKeys, hR, Option.map_some']; rfl,
    by simp only [handleEditKeys, hB, Option.map_some']; rfl, ?_, ?_, ?_, ?_⟩
  · rw [updateOffsets_lines, hl, henc]
    simp [List.take_append_eq_append_take, List.drop_append_eq_append_drop,
      List.take_of_length_le, List.drop_eq_nil_of_le, Nat.min_eq_left hm]
  · rw [updateOffsets_cursorX, hx]
  · simp [updateOffsets_cursorY]
  · simp [updateOffsets_saved]

/-! ## C8: the arrow keys -/

theorem applyKey_up (b : Buffer) (r : Rune) (hb : Inv b) :
    ∃ b', applyKey ⟨.KeyUp, r⟩ b = some b' ∧ b'.lines = b.lines ∧ b'.saved = b.saved ∧
      (b.cursorY = 0 → b'.cursorX = b.cursorX ∧ b'.cursorY = b.cursorY) := by
  obtain ⟨above, line, below, m, hl, hy, hx, hm, -⟩ := hb.split
  simp only [applyKey]
  split
  · rename_i hpos
    obtain ⟨n', hn'⟩ : ∃ n', above.length = n' + 1 := ⟨above.length - 1, by omega⟩
    have e1 : b.cursorY - 1 = (n' : Int) := by omega
    have hlt : n' < b.lines.length := by rw [hl]; simp; omega
    simp only [e1, index_nat, List.getElem?_eq_getElem hlt, Option.bind_eq_bind,
      Option.some_bind, Option.pure_def]
    split <;> exact ⟨_, rfl, rfl, rfl, fun h0 => by omega⟩
  · exact ⟨_, rfl, rfl, rfl, fun _ => ⟨rfl, rfl⟩⟩

theorem applyKey_down (b : Buffer) (r : Rune) (hb : Inv b) :
    ∃ b', applyKey ⟨.KeyDown, r⟩ b = some b' ∧ b'.lines = b.lines ∧ b'.saved = b.saved ∧
      (b.cursorY = len b.lines - 1 → b'.cursorX = b.cursorX ∧ b'.cursorY = b.cursorY) := by
  obtain ⟨above, line, below, m, hl, hy, hx, hm, -⟩ := hb.split
  simp only [applyKey]
  split
  · rename_i hlt
    have e1 : b.cursorY + 1 = ((above.length + 1 : Nat) : Int) := by push_cast; omega
    have hlt' : above.length + 1 < b.lines.length := by
      simp only [len] at hlt; omega
    simp only [e1, index_nat, List.getElem?_eq_getElem hlt', Option.bind_eq_bind,
      Option.some_bind, Option.pure_def]
    split <;> exact ⟨_, rfl, rfl, rfl, fun h0 => by omega⟩
  · exact ⟨_, rfl, rfl, rfl, fun _ => ⟨rfl, rfl⟩⟩

theorem applyKey_left (b : Buffer) (r : Rune) (hb : Inv b) :
    ∃ b', applyKey ⟨.KeyLeft, r⟩ b = some b' ∧ b'.lines = b.lines ∧ b'.saved = b.saved ∧
      (b.cursorX = 0 → 0 < b.cursorY →
        b'.cursorX = len (b.lineAt (b.cursorY - 1)) ∧ b'.cursorY = b.cursorY - 1) ∧
      (b.cursorX = 0 → b.cursorY = 0 → b'.cursorX = b.cursorX ∧ b'.cursorY = b.cursorY) := by
  obtain ⟨above, line, below, m, hl, hy, hx, hm, -⟩ := hb.split
  simp only [applyKey]
  split
  · exact ⟨_, rfl, rfl, rfl, fun h0 => by omega, fun h0 => by omega⟩
  · split
    · rename_i hpos
      obtain ⟨n', hn'⟩ : ∃ n', above.length = n' + 1 := ⟨above.length - 1, by omega⟩
      have e1 : b.cursorY - 1 = (n' : Int) := by omega
      have hlt : n' < b.lines.length := by rw [hl]; simp; omega
      simp only [e1, index_nat, List.getElem?_eq_getElem hlt, Option.bind_eq_bind,
        Option.some_bind, Option.pure_def]
      refine ⟨_, rfl, rfl, rfl, fun _ _ => ⟨?_, rfl⟩, fun _ h0 => by omega⟩
      simp [Buffer.lineAt, List.getD, hlt]
    · exact ⟨_, rfl, rfl, rfl, fun _ h0 => by omega, fun _ _ => ⟨rfl, rfl⟩⟩

theorem applyKey_right (b : Buffer) (r : Rune) (hb : Inv b) :
    ∃ b', applyKey ⟨.KeyRight, r⟩ b = some b' ∧ b'.lines = b.lines ∧ b'.saved = b.saved ∧
      (b.cursorX = len b.curLine → b.cursorY < len b.lines - 1 →
        b'.cursorX = 0 ∧ b'.cursorY = b.cursorY + 1) ∧
      (b.cursorX = len b.curLine → b.cursorY = len b.lines - 1 →
        b'.cursorX = b.cursorX ∧ b'.cursorY = b.cursorY) := by
  obtain ⟨above, line, below, m, hl, hy, hx, hm, hc⟩ := hb.split
  have hidx : index b.lines b.cursorY = some line := by rw [hl, hy]; exact index_split _ _ _
  have hlen : len b.lines = (above.length : Int) + 1 + (below.length : Int) := by
    rw [hl]; simp [len]; ring
  simp only [applyKey, hidx, Option.bind_eq_bind, Option.some_bind, Option.pure_def, hc]
  split
  · exact ⟨_, rfl, rfl, rfl, fun h0 => by omega, fun h0 => by omega⟩
  · split
    · exact ⟨_, rfl, rfl, rfl, fun _ _ => ⟨rfl, rfl⟩, fun _ h0 => by omega⟩
    · exact ⟨_, rfl, rfl, rfl, fun _ h0 => by omega, fun _ _ => ⟨rfl, rfl⟩⟩

/-- C8 (as amended): with the length of a line counted in bytes, as Go's `len`
counts it, on every buffer that satisfies the cursor invariant each of the
four arrow keys returns and changes neither the lines nor the saved flag;
Left at column 0 of a row `r > 0` moves the cursor to `(len(lines[r-1]), r-1)`;
Right at column `len(lines[r])` of a row `r < last` moves it to `(0, r+1)`;
Left at (0,0), Right at the end of the last line, Up on row 0 and Down on the
last row leave the cursor where it was. -/
theorem arrow_keys_wrap_and_edges (b : Buffer) (w h : Int) (r : Rune) (hb : Inv b) :
    ∃ bU bD bL bR,
      handleEditKeys w h ⟨.KeyUp, r⟩ b = some bU ∧
      handleEditKeys w h ⟨.KeyDown, r⟩ b = some bD ∧
      handleEditKeys w h ⟨.KeyLeft, r⟩ b = some bL ∧
      handleEditKeys w h ⟨.KeyRight, r⟩ b = some bR ∧
      (bU.lines = b.lines ∧ bU.saved = b.saved) ∧
      (bD.lines = b.lines ∧ bD.saved = b.saved) ∧
      (bL.lines = b.lines ∧ bL.saved = b.saved) ∧
      (bR.lines = b.lines ∧ bR.saved = b.saved) ∧
      (b.cursorX = 0 → 0 < b.cursorY →
        bL.cursorX = len (b.lineAt (b.cursorY - 1)) ∧ bL.cursorY = b.cursorY - 1) ∧
      (b.cursorX = len b.curLine → b.cursorY < len b.lines - 1 →
        bR.cursorX = 0 ∧ bR.cursorY = b.cursorY + 1) ∧
      (b.cursorX = 0 → b.cursorY = 0 → bL.cursorX = b.cursorX ∧ bL.cursorY = b.cursorY) ∧
      (b.cursorX = len b.curLine → b.cursorY = len b.lines - 1 →
        bR.cursorX = b.cursorX ∧ bR.cursorY = b.cursorY) ∧
      (b.cursorY = 0 → bU.cursorX = b.cursorX ∧ bU.cursorY = b.cursorY) ∧
      (b.cursorY = len b.lines - 1 → bD.cursorX = b.cursorX ∧ bD.cursorY = b.cursorY) := by
  obtain ⟨bU, hU, hU1, hU2, hU3⟩ := applyKey_up b r hb
  obtain ⟨bD, hD, hD1, hD2, hD3⟩ := applyKey_down b r hb
  obtain ⟨bL, hL, hL1, hL2, hL3, hL4⟩ := applyKey_left b r hb
  obtain ⟨bR, hR, hR1, hR2, hR3, hR4⟩ := applyKey_right b r hb
  refine ⟨updateOffsets w h bU, updateOffsets w h bD, updateOffsets w h bL,
    updateOffsets w h bR, ?_, ?_, ?_, ?_, ?_⟩
  · simp [handleEditKeys, hU]
  · simp [handleEditKeys, hD]
  · simp [handleEditKeys, hL]
  · simp [handleEditKeys, hR]
  · simp only [updateOffsets_lines, updateOffsets_saved, updateOffsets_cursorX,
      updateOffsets_cursorY]
    exact ⟨⟨hU1, hU2⟩, ⟨hD1, hD2⟩, ⟨hL1, hL2⟩, ⟨hR1, hR2⟩, hL3, hR3, hL4, hR4, hU3, hD3⟩

/-- The arrow keys at work on the lines `é` (two bytes), `x`: Left from the
start of the second line goes to column 2 of the first, its length in bytes,
and Down on the last row stays; Right from column 2 of the first line goes to
the start of the second, and Up on row 0 stays. -/
theorem arrow_keys_wrap_and_edges_witness :
    (Inv { emptyBuffer with lines := [[0xC3, 0xA9], [0x78]], cursorY := 1 } ∧
      ∃ bL bD,
        handleEditKeys 80 24 ⟨.KeyLeft, 0⟩
          { emptyBuffer with lines := [[0xC3, 0xA9], [0x78]], cursorY := 1 } = some bL ∧
        handleEditKeys 80 24 ⟨.KeyDown, 0⟩
          { emptyBuffer with lines := [[0xC3, 0xA9], [0x78]], cursorY := 1 } = some bD ∧
        (bL.cursorX = 2 ∧ bL.cursorY = 0) ∧ (bD.cursorX = 0 ∧ bD.cursorY = 1) ∧
        bL.lines = [[0xC3, 0xA9], [0x78]] ∧ bL.saved = false) ∧
    (Inv { emptyBuffer with lines := [[0xC3, 0xA9], [0x78]], cursorX := 2 } ∧
      ∃ bR bU,
        handleEditKeys 80 24 ⟨.KeyRight, 0⟩
          { emptyBuffer with lines := [[0xC3, 0xA9], [0x78]], cursorX := 2 } = some bR ∧
        handleEditKeys 80 24 ⟨.KeyUp, 0⟩
          { emptyBuffer with lines := [[0xC3, 0xA9], [0x78]], cursorX := 2 } = some bU ∧
        (bR.cursorX = 0 ∧ bR.cursorY = 1) ∧ (bU.cursorX = 2 ∧ bU.cursorY = 0) ∧
        bR.lines = [[0xC3, 0xA9], [0x78]] ∧ bR.saved = false) := by
  refine ⟨⟨by decide, ?_⟩, ⟨by decide, ?_⟩⟩
  · obtain ⟨_, bD, bL, _, _, hD, hL, _, _, _, hLl, _, hw, _, _, _, _, hd⟩ :=
      arrow_keys_wrap_and_edges
        { emptyBuffer with lines := [[0xC3, 0xA9], [0x78]], cursorY := 1 } 80 24 0 (by decide)
    exact ⟨bL, bD, hL, hD, hw rfl (by decide), hd (by decide), hLl.1, hLl.2⟩
  · obtain ⟨bU, _, _, bR, hU, _, _, hR, _, _, _, hRl, _, hw, _, _, hu, _⟩ :=
      arrow_keys_wrap_and_edges
        { emptyBuffer with lines := [[0xC3, 0xA9], [0x78]], cursorX := 2 } 80 24 0 (by decide)
    exact ⟨bR, bU, hR, hU, hw (by decide) (by decide), hu rfl, hRl.1, hRl.2⟩

/-- C8 (as stated) fails with the length of a line counted in code points, as
C1 counts it: on the lines `é` (one code point, two bytes), `x`, the cursor
(1,0) satisfies the invariant and stands at column `len(lines[0])` of a row
that is not the last, and Right moves it to (2,0), not to (0,1); from (0,1)
Left moves it to (2,0), not to `(len(lines[0]), 0) = (1,0)`. -/
theorem arrow_keys_miss_code_point_ends :
    InvRunes { emptyBuffer with lines := [[0xC3, 0xA9], [0x78]], cursorX := 1 } ∧
      len (toRunes [0xC3, 0xA9]) = 1 ∧
      handleEditKeys 80 24 ⟨.KeyRight, 0⟩
          { emptyBuffer with lines := [[0xC3, 0xA9], [0x78]], cursorX := 1 }
        = some { emptyBuffer with lines := [[0xC3, 0xA9], [0x78]], cursorX := 2 } ∧
      InvRunes { emptyBuffer with lines := [[0xC3, 0xA9], [0x78]], cursorY := 1 } ∧
      handleEditKeys 80 24 ⟨.KeyLeft, 0⟩
          { emptyBuffer with lines := [[0xC3, 0xA9], [0x78]], cursorY := 1 }
        = some { emptyBuffer with lines := [[0xC3, 0xA9], [0x78]], cursorX := 2 } := by
  decide

/-! ## C7: the viewport follows the cursor -/

/-- The viewport update on any buffer: the cursor is inside the window, and
each offset is kept when the cursor was inside on that axis, and is else the
cursor coordinate or the cursor coordinate minus the dimension plus one. -/
theorem updateOffsets_window (w height : Int) (b : Buffer) (hw : 1 ≤ w) (hh : 1 ≤ height - 2) :
    let b' := updateOffsets w height b
    (b'.offsetX ≤ b.cursorX ∧ b.cursorX < b'.offsetX + w) ∧
    (b'.offsetY ≤ b.cursorY ∧ b.cursorY < b'.offsetY + (height - 2)) ∧
    (b.offsetX ≤ b.cursorX ∧ b.cursorX < b.offsetX + w → b'.offsetX = b.offsetX) ∧
    (b.cursorX < b.offsetX → b'.offsetX = b.cursorX) ∧
    (b.offsetX + w ≤ b.cursorX → b'.offsetX = b.cursorX - w + 1) ∧
    (b.offsetY ≤ b.cursorY ∧ b.cursorY < b.offsetY + (height - 2) → b'.offsetY = b.offsetY) ∧
    (b.cursorY < b.offsetY → b'.offsetY = b.cursorY) ∧
    (b.offsetY + (height - 2) ≤ b.cursorY → b'.offsetY = b.cursorY - (height - 2) + 1) := by
  simp only [updateOffsets]
  split_ifs <;> (try dsimp only at *) <;> omega

/-- C7: on every buffer that satisfies the cursor invariant and every screen
of width `w >= 1` and content height `h = height - 2 >= 1`, `handleEditKeys`
returns a buffer `b'` whose cursor `(cx, cy)` satisfies
`offsetX <= cx < offsetX + w` and `offsetY <= cy < offsetY + h`, so that `Draw`
shows the cursor; each offset is the old one when the cursor was already
inside on that axis, the cursor coordinate when the cursor was before the
window, and the coordinate minus the dimension plus one when it was past
the window. -/
theorem handleEditKeys_scrolls_to_cursor (b : Buffer) (ev : EventKey) (w height : Int)
    (hb : Inv b) (hw : 1 ≤ w) (hh : 1 ≤ height - 2) :
    ∃ b', handleEditKeys w height ev b = some b' ∧
      (b'.offsetX ≤ b'.cursorX ∧ b'.cursorX < b'.offsetX + w) ∧
      (b'.offsetY ≤ b'.cursorY ∧ b'.cursorY < b'.offsetY + (height - 2)) ∧
      cursorShown w height b' = true ∧
      (b.offsetX ≤ b'.cursorX ∧ b'.cursorX < b.offsetX + w → b'.offsetX = b.offsetX) ∧
      (b'.cursorX < b.offsetX → b'.offsetX = b'.cursorX) ∧
      (b.offsetX + w ≤ b'.cursorX → b'.offsetX = b'.cursorX - w + 1) ∧
      (b.offsetY ≤ b'.cursorY ∧ b'.cursorY < b.offsetY + (height - 2) →
        b'.offsetY = b.offsetY) ∧
      (b'.cursorY < b.offsetY → b'.offsetY = b'.cursorY) ∧
      (b.offsetY + (height - 2) ≤ b'.cursorY → b'.offsetY = b'.cursorY - (height - 2) + 1) := by
  obtain ⟨b1, h1, -, hox⟩ := applyKey_inv ev b hb
  have hwin := updateOffsets_window w height b1 hw hh
  simp only [] at hwin
  obtain ⟨hx, hy, k1, k2, k3, k4, k5, k6⟩ := hwin
  refine ⟨updateOffsets w height b1, by simp [handleEditKeys, h1], ?_⟩
  rw [updateOffsets_cursorX, updateOffsets_cursorY]
  rw [hox.1] at k1 k2 k3
  rw [hox.2] at k4 k5 k6
  refine ⟨hx, hy, ?_, k1, k2, k3, k4, k5, k6⟩
  simp only [cursorShown, updateOffsets_cursorX, updateOffsets_cursorY, Bool.and_eq_true,
    decide_eq_true_eq]
  omega

/-- The viewport at work: Down from the last visible row of a 3-row window
scrolls by one line. -/
theorem handleEditKeys_scrolls_to_cursor_witness :
    Inv { emptyBuffer with lines := [[], [], [], []], cursorY := 2 } ∧
      ∃ b', handleEditKeys 80 5 ⟨.KeyDown, 0⟩
          { emptyBuffer with lines := [[], [], [], []], cursorY := 2 } = some b' ∧
        b'.cursorY = 3 ∧ b'.offsetY = 1 := by
  refine ⟨by decide, ?_⟩
  obtain ⟨b', h1, -, -, -, -, -, -, -, -, h3⟩ :=
    handleEditKeys_scrolls_to_cursor
      { emptyBuffer with lines := [[], [], [], []], cursorY := 2 } ⟨.KeyDown, 0⟩ 80 5
      (by decide) (by decide) (by decide)
  have h2 : handleEditKeys 80 5 ⟨.KeyDown, 0⟩
      { emptyBuffer with lines := [[], [], [], []], cursorY := 2 }
      = some { emptyBuffer with lines := [[], [], [], []], cursorY := 3, offsetY := 1 } := by
    decide
  rw [h2] at h1
  cases h1
  exact ⟨_, h2, rfl, rfl⟩

/-! ## C5 and C6: tabs -/

/-- C5: on every editor with exactly one buffer, `CloseTab` returns the editor
unchanged (the same buffer list, so the same buffer with its contents, cursor,
viewport and saved flag, and the same `activeBuf`) but for the status message,
which is "Cannot close last tab". -/
theorem CloseTab_last_tab (e : Editor) (h : len e.buffers = 1) :
    e.CloseTab = some { e with status := str "Cannot close last tab" } ∧
      ∀ e', e.CloseTab = some e' →
        e'.buffers = e.buffers ∧ e'.activeBuf = e.activeBuf ∧
          e'.status = str "Cannot close last tab" := by
  have h1 : e.CloseTab = some { e with status := str "Cannot close last tab" } := by
    simp [Editor.CloseTab, h]
  refine ⟨h1, fun e' he => ?_⟩
  rw [h1] at he
  cases he
  exact ⟨rfl, rfl, rfl⟩

/-- Closing the only tab of a one-buffer editor. -/
theorem CloseTab_last_tab_witness :
    len (commentEditor (str "x.go")).buffers = 1 ∧
      ∀ e', (commentEditor (str "x.go")).CloseTab = some e' →
        e'.buffers = (commentEditor (str "x.go")).buffers ∧
          e'.activeBuf = (commentEditor (str "x.go")).activeBuf ∧
          e'.status = str "Cannot close last tab" :=
  ⟨by decide, (CloseTab_last_tab (commentEditor (str "x.go")) (by decide)).2⟩

/-- C6 (as amended): on every editor with `n >= 1` buffers and
`0 <= activeBuf < n`, and for every integer `delta` whose sum
`activeBuf + delta` is a 64-bit `int` (`-2^63 <= activeBuf + delta < 2^63`),
`SwitchTab(delta)` returns, `activeBuf` becomes
`min(max(activeBuf + delta, 0), n - 1)` and the buffer list is unchanged. -/
theorem SwitchTab_clamps (e : Editor) (delta : Int) (hn : 1 ≤ len e.buffers)
    (ha : 0 ≤ e.activeBuf ∧ e.activeBuf < len e.buffers)
    (hd : -9223372036854775808 ≤ e.activeBuf + delta ∧
      e.activeBuf + delta < 9223372036854775808) :
    ∃ e', e.SwitchTab delta = some e' ∧
      e'.activeBuf = min (max (e.activeBuf + delta) 0) (len e.buffers - 1) ∧
      e'.buffers = e.buffers := by
  have hwrap : wrapInt64 (e.activeBuf + delta) = e.activeBuf + delta := by
    unfold wrapInt64; omega
  have hclamp : (if e.activeBuf + delta < 0 then (0 : Int)
      else if e.activeBuf + delta ≥ len e.buffers then len e.buffers - 1
      else e.activeBuf + delta)
      = min (max (e.activeBuf + delta) 0) (len e.buffers - 1) := by
    split_ifs <;> omega
  have hne : ¬ len e.buffers = 0 := by omega
  have hlo : 0 ≤ min (max (e.activeBuf + delta) 0) (len e.buffers - 1) := by omega
  have hhi : (min (max (e.activeBuf + delta) 0) (len e.buffers - 1)).toNat < e.buffers.length := by
    simp only [len] at hn ⊢; omega
  simp only [Editor.SwitchTab, hwrap, Editor.currentBuffer, hclamp, hne, if_false, index, hlo,
    if_true, List.getElem?_eq_getElem hhi, Option.map_some', Option.bind_eq_bind,
    Option.some_bind, Option.pure_def]
  split_ifs <;> exact ⟨_, rfl, rfl, rfl⟩

/-- The scenario of C6: `SwitchTab(-1)` on the first of three tabs leaves
`activeBuf` at 0. -/
theorem SwitchTab_clamps_witness :
    1 ≤ len ((commentEditor []).NewTab.NewTab).buffers ∧
      ∃ e', ({ (commentEditor []).NewTab.NewTab with activeBuf := 0 }).SwitchTab (-1) = some e' ∧
        e'.activeBuf = 0 ∧ e'.buffers = ((commentEditor []).NewTab.NewTab).buffers :=
  ⟨by decide,
    SwitchTab_clamps { (commentEditor []).NewTab.NewTab with activeBuf := 0 } (-1)
      (by decide) (by decide) (by decide)⟩

/-- C6 (as stated) fails at the largest `int`: on the second of three tabs,
`SwitchTab(9223372036854775807)` overflows `activeBuf + delta` to `-2^63`, which
is clamped to tab 0, where `min(max(activeBuf + delta, 0), n - 1)` is 2. -/
theorem SwitchTab_wraps_at_max_int :
    len ((commentEditor []).NewTab.NewTab).buffers = 3 ∧
      (({ (commentEditor []).NewTab.NewTab with activeBuf := 1 }).SwitchTab
          9223372036854775807).map (fun (e : Editor) => (e.activeBuf, e.buffers.length))
        = some (0, 3) ∧
      min (max ((1 : Int) + 9223372036854775807) 0)
          (len ((commentEditor []).NewTab.NewTab).buffers - 1) = 2 := by
  decide

/-! ## `DrawLine`, cell by cell -/

theorem paintLoop_eq (runes : List Rune) (y : Int) (style : Style) (lo : Int) (hlo : 0 ≤ lo) :
    ∀ (n : Nat) (scr : Screen), lo + (n : Int) ≤ len runes →
      (List.range n).foldlM
        (fun (s : Screen) (k : Nat) => (index runes (lo + (k : Int))).map
          (fun ch => SetContent s (lo + (k : Int)) y ch style)) scr
        = some (fun x' y' =>
            if y' = y ∧ lo ≤ x' ∧ x' < lo + (n : Int) then ⟨runeAt runes x', style⟩
            else scr x' y') := by
  intro n
  induction n with
  | zero =>
    intro scr _
    simp only [List.range_zero, List.foldlM_nil, Option.pure_def, Option.some.injEq]
    funext x' y'
    have : ¬ (y' = y ∧ lo ≤ x' ∧ x' < lo + ((0 : Nat) : Int)) := by omega
    rw [if_neg this]
  | succ n ih =>
    intro scr hn
    have hn' : lo + (n : Int) ≤ len runes := by push_cast at hn; omega
    have hidx : index runes (lo + (n : Int)) = some (runeAt runes (lo + (n : Int))) := by
      have h0 : 0 ≤ lo + (n : Int) := by omega
      have h1 : (lo + (n : Int)).toNat < runes.length := by
        simp only [len] at hn; push_cast at hn; omega
      simp [index, h0, runeAt, List.getD, List.getElem?_eq_getElem h1]
    rw [List.range_succ, List.foldlM_append, ih scr hn']
    simp only [Option.bind_eq_bind, Option.some_bind, List.foldlM_cons, List.foldlM_nil, hidx,
      Option.map_some', Option.pure_def, Option.some.injEq]
    funext x' y'
    simp only [SetContent]
    by_cases h1 : x' = lo + (n : Int) ∧ y' = y
    · have : y' = y ∧ lo ≤ x' ∧ x' < lo + ((n + 1 : Nat) : Int) := by omega
      rw [if_pos h1, if_pos this, h1.1]
    · rw [if_neg h1]
      by_cases h2 : y' = y ∧ lo ≤ x' ∧ x' < lo + (n : Int)
      · have : y' = y ∧ lo ≤ x' ∧ x' < lo + ((n + 1 : Nat) : Int) := by omega
        rw [if_pos h2, if_pos this]
      · have : ¬ (y' = y ∧ lo ≤ x' ∧ x' < lo + ((n + 1 : Nat) : Int)) := by omega
        rw [if_neg h2, if_neg this]

theorem paintRange_eq (runes : List Rune) (width y : Int) (style : Style) (lo hi : Int)
    (scr : Screen) (hlo : 0 ≤ lo) (hle : lo ≤ hi) (hhi : hi ≤ len runes) :
    paintRange runes width y style lo hi scr
      = some (fun x' y' =>
          if y' = y ∧ lo ≤ x' ∧ x' < hi ∧ x' < width then ⟨runeAt runes x', style⟩
          else scr x' y') := by
  unfold paintRange
  rw [paintLoop_eq runes y style lo hlo _ scr (by omega)]
  simp only [Option.some.injEq]
  funext x' y'
  have : (y' = y ∧ lo ≤ x' ∧ x' < lo + (((min hi width - lo).toNat : Nat) : Int))
      ↔ (y' = y ∧ lo ≤ x' ∧ x' < hi ∧ x' < width) := by omega
  simp only [this]

theorem applyMatch_eq (runes : List Rune) (width y : Int) (style : Style) (scr : Screen)
    (m : Int × Int) :
    applyMatch runes width y style scr m
      = some (fun x' y' =>
          if y' = y ∧ x' < width ∧ (kept (len runes) m && covers m x') = true then
            ⟨runeAt runes x', style⟩
          else scr x' y') := by
  unfold applyMatch
  simp only []
  split
  · rename_i hg
    simp only [Option.some.injEq]
    funext x' y'
    have : ¬ (y' = y ∧ x' < width ∧ (kept (len runes) m && covers m x') = true) := by
      simp only [kept, covers, Bool.and_eq_true, Bool.not_eq_true', Bool.or_eq_false_iff,
        decide_eq_false_iff_not, decide_eq_true_eq]
      omega
    rw [if_neg this]
  · rename_i hg
    rw [paintRange_eq runes width y style m.1 m.2 scr (by omega) (by omega) (by omega)]
    simp only [Option.some.injEq]
    funext x' y'
    have : (y' = y ∧ m.1 ≤ x' ∧ x' < m.2 ∧ x' < width)
        ↔ (y' = y ∧ x' < width ∧ (kept (len runes) m && covers m x') = true) := by
      simp only [kept, covers, Bool.and_eq_true, Bool.not_eq_true', Bool.or_eq_false_iff,
        decide_eq_false_iff_not, decide_eq_true_eq]
      omega
    simp only [this]

theorem foldlM_applyMatch (runes : List Rune) (width y : Int) (style : Style)
    (ms : List (Int × Int)) :
    ∀ scr : Screen, ms.foldlM (applyMatch runes width y style) scr
      = some (fun x' y' =>
          if y' = y ∧ x' < width ∧ ms.any (fun m => kept (len runes) m && covers m x') = true then
            ⟨runeAt runes x', style⟩
          else scr x' y') := by
  induction ms with
  | nil =>
    intro scr
    simp only [List.foldlM_nil, Option.pure_def, Option.some.injEq]
    funext x' y'
    simp
  | cons m ms ih =>
    intro scr
    rw [List.foldlM_cons, applyMatch_eq]
    simp only [Option.bind_eq_bind, Option.some_bind, ih, Option.some.injEq]
    funext x' y'
    simp only [List.any_cons, Bool.or_eq_true]
    by_cases h1 : y' = y ∧ x' < width ∧
        ms.any (fun m => kept (len runes) m && covers m x') = true
    · rw [if_pos h1, if_pos ⟨h1.1, h1.2.1, Or.inr h1.2.2⟩]
    · rw [if_neg h1]
      by_cases h2 : y' = y ∧ x' < width ∧ (kept (len runes) m && covers m x') = true
      · rw [if_pos h2, if_pos ⟨h2.1, h2.2.1, Or.inl h2.2.2⟩]
      · rw [if_neg h2, if_neg]
        rintro ⟨a, b, c | c⟩
        · exact h2 ⟨a, b, c⟩
        · exact h1 ⟨a, b, c⟩

theorem foldlM_applyRule (line : GoString) (runes : List Rune) (width y : Int)
    (rules : List HighlightRule) :
    ∀ scr : Screen, rules.foldlM (applyRule line runes width y) scr
      = some (fun x' y' =>
          if y' = y ∧ x' < width then
            match rules.reverse.find?
              (fun r => (r.pattern line).any (fun m => kept (len runes) m && covers m x')) with
            | some r => ⟨runeAt runes x', r.style⟩
            | none => scr x' y'
          else scr x' y') := by
  induction rules with
  | nil =>
    intro scr
    simp only [List.foldlM_nil, Option.pure_def, Option.some.injEq]
    funext x' y'
    simp
  | cons r rs ih =>
    intro scr
    rw [List.foldlM_cons]
    simp only [applyRule, foldlM_applyMatch, Option.bind_eq_bind, Option.some_bind]
    have ih' := ih
    simp only [applyRule] at ih'
    rw [ih']
    simp only [Option.some.injEq, List.reverse_cons, List.find?_append]
    funext x' y'
    by_cases h1 : y' = y ∧ x' < width
    · rw [if_pos h1, if_pos h1]
      cases hf : rs.reverse.find?
          (fun r => (r.pattern line).any (fun m => kept (len runes) m && covers m x')) with
      | some r' => simp
      | none =>
        simp only [Option.none_or, List.find?_cons, List.find?_nil]
        by_cases h2 : (r.pattern line).any (fun m => kept (len runes) m && covers m x') = true
        · rw [if_pos ⟨h1.1, h1.2, h2⟩]
          simp [h2]
        · rw [if_neg (fun h => h2 h.2.2)]
          simp only [Bool.not_eq_true] at h2
          simp [h2]
    · rw [if_neg h1, if_neg h1, if_neg (fun h => h1 ⟨h.1, h.2.1⟩)]

/-- The highlighting path returns, and column `x` of row `y`, when it is a
column of the line within the width, holds the rune of that column in the
style of the last rule with a match that passed the guard and covers `x`. -/
theorem drawHighlighted_cell (rules : List HighlightRule) (width y : Int) (line : GoString)
    (defaultStyle : Style) (scr : Screen) :
    ∃ scr', drawHighlighted rules width y line defaultStyle scr = some scr' ∧
      ∀ x, 0 ≤ x → x < len (toRunes line) → x < width →
        scr' x y = ⟨runeAt (toRunes line) x,
          lastKeptStyle rules line (len (toRunes line)) defaultStyle x⟩ := by
  have hlen : (0 : Int) ≤ len (toRunes line) := by simp [len]
  simp only [drawHighlighted, Option.bind_eq_bind,
    paintRange_eq (toRunes line) width y defaultStyle 0 (len (toRunes line)) scr (le_refl 0)
      hlen (le_refl _),
    Option.some_bind, foldlM_applyRule]
  refine ⟨_, rfl, fun x h0 h1 h2 => ?_⟩
  simp only [lastKeptStyle]
  rw [if_pos ⟨trivial, h2⟩]
  cases hf : rules.reverse.find?
      (fun r => (r.pattern line).any
        (fun m => kept (len (toRunes line)) m && covers m x)) with
  | some r' => rfl
  | none =>
    simp only []
    rw [if_pos ⟨trivial, h0, h1, h2⟩]

/-! ## C4: the last rule decides the style -/

/-- C4 (as amended): with highlighting on and a rule set selected for the
active buffer, `DrawLine` returns, and every column `x` of the line within the
width holds the rune of that column in the style of the LAST rule, in
rule-set order, that has a match `[start, end)` with `start <= x < end` that
passes the guard of line 408 (`0 <= start < end <= n`, `n` the number of
code points of the line), and in the default style when no rule has one. -/
theorem DrawLine_last_kept_rule (e : Editor) (width y : Int) (line : GoString) (scr : Screen)
    (buf : Buffer) (langRules : LanguageRules)
    (hbuf : index e.buffers e.activeBuf = some buf) (hh : e.highlight = true)
    (hsel : selectLanguage e buf.filename = some (some langRules)) :
    ∃ scr', e.DrawLine width y line scr = some (e, scr') ∧
      ∀ x, 0 ≤ x → x < len (toRunes line) → x < width →
        scr' x y = ⟨runeAt (toRunes line) x,
          lastKeptStyle langRules.rules line (len (toRunes line))
            (e.theme (str "background")) x⟩ := by
  have hne : ¬ len e.buffers = 0 := by
    intro h0
    have : e.buffers = [] := by
      simp only [len] at h0
      exact List.length_eq_zero.mp (by exact_mod_cast h0)
    rw [this] at hbuf
    simp [index] at hbuf
  obtain ⟨scr', h1, h2⟩ :=
    drawHighlighted_cell langRules.rules width y line (e.theme (str "background")) scr
  refine ⟨scr', ?_, h2⟩
  simp [Editor.DrawLine, Editor.currentBuffer, hne, hbuf, hsel, hh, h1]

/-- The rule order at work in `x.go` with the comment rule followed by the
string rule. On `x // "s"` the comment match `[2, 8)` and the string match
`[5, 8)` overlap: columns 0 and 1, which no match covers, keep the default
style 1, columns 2 to 4 take the comment style 5 and columns 5 to 7 the style
4 of the later string rule. On `"é" "b"` (7 code points, 8 bytes) the string
match `[0, 4)` is painted and the string match `[5, 8)`, which ends past the
7 code points, is skipped: columns 4 to 6 keep the default style. -/
theorem DrawLine_last_kept_rule_witness :
    (stringPattern (str "x // \"s\"") = [(5, 8)] ∧
      commentPattern (str "x // \"s\"") = [(2, 8)] ∧
      ∃ scr', (commentStringEditor (str "x.go")).DrawLine 80 1 (str "x // \"s\"") (blankScreen 1)
          = some (commentStringEditor (str "x.go"), scr') ∧
        [0, 1, 2, 3, 4, 5, 6, 7].map (fun x => (scr' x 1).style) = [1, 1, 5, 5, 5, 4, 4, 4]) ∧
    (stringPattern (str "\"é\" \"b\"") = [(0, 4), (5, 8)] ∧
      len (toRunes (str "\"é\" \"b\"")) = 7 ∧
      ∃ scr', (commentStringEditor (str "x.go")).DrawLine 80 1 (str "\"é\" \"b\"")
            (blankScreen 1)
          = some (commentStringEditor (str "x.go"), scr') ∧
        [0, 1, 2, 3, 4, 5, 6].map (fun x => (scr' x 1).style) = [4, 4, 4, 4, 1, 1, 1]) := by
  refine ⟨⟨by decide, by decide, ?_⟩, ⟨by decide, by decide, ?_⟩⟩
  · obtain ⟨scr', h1, h2⟩ :=
      DrawLine_last_kept_rule (commentStringEditor (str "x.go")) 80 1 (str "x // \"s\"")
        (blankScreen 1) { emptyBuffer with filename := str "x.go", saved := true }
        { name := str "Go", rules := commentStringRules } (by decide) rfl (by rfl)
    refine ⟨scr', h1, ?_⟩
    simp only [List.map_cons, List.map_nil,
      h2 0 (by decide) (by decide) (by decide), h2 1 (by decide) (by decide) (by decide),
      h2 2 (by decide) (by decide) (by decide), h2 3 (by decide) (by decide) (by decide),
      h2 4 (by decide) (by decide) (by decide), h2 5 (by decide) (by decide) (by decide),
      h2 6 (by decide) (by decide) (by decide), h2 7 (by decide) (by decide) (by decide)]
    decide
  · obtain ⟨scr', h1, h2⟩ :=
      DrawLine_last_kept_rule (commentStringEditor (str "x.go")) 80 1 (str "\"é\" \"b\"")
        (blankScreen 1) { emptyBuffer with filename := str "x.go", saved := true }
        { name := str "Go", rules := commentStringRules } (by decide) rfl (by rfl)
    refine ⟨scr', h1, ?_⟩
    simp only [List.map_cons, List.map_nil,
      h2 0 (by decide) (by decide) (by decide), h2 1 (by decide) (by decide) (by decide),
      h2 2 (by decide) (by decide) (by decide), h2 3 (by decide) (by decide) (by decide),
      h2 4 (by decide) (by decide) (by decide), h2 5 (by decide) (by decide) (by decide),
      h2 6 (by decide) (by decide) (by decide)]
    decide

/-- C4 (as stated) fails: in `x.go`, whose rule set is the comment rule, the
line `a // ñ` has 6 code points and 7 bytes; the comment rule reports the
match `[2, 7)`, which covers column 2, so the claim gives column 2 the comment
style 5; `DrawLine` leaves it in the default style 1. -/
theorem DrawLine_ignores_covering_match :
    commentPattern (str "a // ñ") = [(2, 7)] ∧
      len (toRunes (str "a // ñ")) = 6 ∧
      lastMatchStyle [⟨commentPattern, 5⟩] (str "a // ñ") 1 2 = 5 ∧
      ((commentEditor (str "x.go")).DrawLine 80 1 (str "a // ñ") (blankScreen 1)).map
        (fun p => p.2 2 1) = some ⟨0x2F, 1⟩ := by
  decide

/-! ## C10: matches that end past the line -/

theorem kept_le (n : Int) (m : Int × Int) (x : Int) :
    (decide (m.2 ≤ n) && (kept n m && covers m x)) = (kept n m && covers m x) := by
  by_cases h : m.2 ≤ n
  · simp [h]
  · have : kept n m = false := by
      simp only [kept, Bool.not_eq_false', Bool.or_eq_true, decide_eq_true_eq]
      omega
    simp [h, this]

theorem applyRule_dropOverlong (line : GoString) (runes : List Rune) (width y : Int)
    (scr : Screen) (r : HighlightRule) :
    applyRule line runes width y scr (dropOverlong (len runes) r)
      = applyRule line runes width y scr r := by
  simp only [applyRule, dropOverlong, foldlM_applyMatch, List.any_filter, kept_le]

/-- C10 (as amended): a match that ends past the `n` code points of the line
is dropped, not clamped: `DrawLine` paints the cells it would paint if no
rule reported such a match. -/
theorem drawHighlighted_drops_overlong (rules : List HighlightRule) (width y : Int)
    (line : GoString) (defaultStyle : Style) (scr : Screen) :
    drawHighlighted rules width y line defaultStyle scr
      = drawHighlighted (rules.map (dropOverlong (len (toRunes line)))) width y line
          defaultStyle scr := by
  simp only [drawHighlighted, List.foldlM_map, applyRule_dropOverlong]

/-- C10 (as stated) fails: in `x.go` the line `// é` has 4 code points and 5
bytes; the comment rule reports the match `[0, 5)`, with `0 <= 0 < 4 < 5`;
`DrawLine` leaves the columns 0..3 in the default style 1, not the comment
style 5. -/
theorem DrawLine_overlong_not_clamped :
    commentPattern (str "// é") = [(0, 5)] ∧
      len (toRunes (str "// é")) = 4 ∧
      ((commentEditor (str "x.go")).DrawLine 80 1 (str "// é") (blankScreen 1)).map
        (fun p => (List.range 4).map (fun x => (p.2 (x : Int) 1).style)) = some [1, 1, 1, 1] := by
  decide

/-! ## C9: the language of a file name -/

/-- C9 at file names without a dot: `DrawLine` selects the Go rules for the
file name `go`, the C rules for `c` and the COBOL rules for `cobol`, none of
which ends in a suffix of the list; the line `// b` of a buffer called `go` is
drawn in the comment style of the Go rules. -/
theorem selectKey_name_without_dot :
    selectKey true (str "go") = some (some (str "go")) ∧
      suffixLanguage (str "go") = none ∧
      selectKey true (str "c") = some (some (str "c")) ∧
      suffixLanguage (str "c") = none ∧
      selectKey true (str "cobol") = some (some (str "cobol")) ∧
      suffixLanguage (str "cobol") = none ∧
      ((commentEditor (str "go")).DrawLine 80 1 (str "// b") (blankScreen 1)).map
        (fun p => (p.2 0 1).style) = some 5 := by
  decide

theorem lastIndexAux_not_mem (c : Nat) (s : GoString) (h : c ∉ s) :
    ∀ i best, lastIndexAux c s i best = best := by
  induction s with
  | nil => intro i best; rfl
  | cons b rest ih =>
    intro i best
    have hb : ¬ b = c := fun hbc => h (by simp [hbc])
    have hr : c ∉ rest := fun hm => h (List.mem_cons_of_mem _ hm)
    simp only [lastIndexAux, hb, if_false]
    exact ih hr _ _

theorem lastIndexAux_split (c : Nat) (pre ext : GoString) (h : c ∉ ext) :
    ∀ i best, lastIndexAux c (pre ++ c :: ext) i best = i + (pre.length : Int) := by
  induction pre with
  | nil =>
    intro i best
    simp [lastIndexAux, lastIndexAux_not_mem c ext h]
  | cons p pre ih =>
    intro i best
    show lastIndexAux c (p :: (pre ++ c :: ext)) i best = _
    rw [lastIndexAux, ih, List.length_cons]
    push_cast
    ring

theorem exists_last_split (c : Nat) (s : GoString) (h : c ∈ s) :
    ∃ pre ext, s = pre ++ c :: ext ∧ c ∉ ext := by
  induction s with
  | nil => simp at h
  | cons b rest ih =>
    by_cases hr : c ∈ rest
    · obtain ⟨pre, ext, he, hn⟩ := ih hr
      exact ⟨b :: pre, ext, by simp [he], hn⟩
    · have hb : c = b := by
        rcases List.mem_cons.mp h with h1 | h1
        · exact h1
        · exact absurd h1 hr
      exact ⟨[], rest, by simp [hb], hr⟩

theorem dot_mem_ToLower (s : GoString) : 0x2E ∈ ToLower s ↔ 0x2E ∈ s := by
  simp only [ToLower, List.mem_map]
  constructor
  · rintro ⟨b, hb, he⟩
    split_ifs at he with h1
    · omega
    · rw [← he]; exact hb
  · intro h
    exact ⟨0x2E, h, by simp⟩

theorem tail_after_last (c : Nat) (X T Y E : GoString) (hT : c ∉ T) (hE : c ∉ E)
    (h : X ++ c :: T = Y ++ c :: E) : T = E := by
  rcases List.append_eq_append_iff.mp h with ⟨a, rfl, h2⟩ | ⟨a, rfl, h2⟩
  · cases a with
    | nil => simpa using h2
    | cons x a =>
      simp only [List.cons_append, List.cons.injEq] at h2
      exact absurd (by rw [h2.2]; simp) hT
  · cases a with
    | nil => simpa using h2.symm
    | cons x a =>
      simp only [List.cons_append, List.cons.injEq] at h2
      exact absurd (by rw [h2.2]; simp) hE

theorem dotSuffix_iff (pre ext T : GoString) (hE : 0x2E ∉ ext) (hT : 0x2E ∉ T) :
    endsWithFold (pre ++ 0x2E :: ext) (0x2E :: T) = true ↔ ToLower ext = T := by
  have hl : ToLower (pre ++ 0x2E :: ext) = ToLower pre ++ 0x2E :: ToLower ext := by
    simp [ToLower]
  simp only [endsWithFold, decide_eq_true_eq, hl]
  constructor
  · rintro ⟨X, hX⟩
    exact (tail_after_last 0x2E X T (ToLower pre) (ToLower ext) hT
      (fun hm => hE ((dot_mem_ToLower ext).mp hm)) hX).symm
  · intro h
    rw [h]
    exact ⟨ToLower pre, rfl⟩

/-- For a file name that contains a dot, the selection of `DrawLine` is the
one by suffix: Go for `.go`, C for `.c`, COBOL for `.cob`, `.cbl` and
`.cobol`, letter case aside, and no rule set for any other name. -/
theorem selectKey_of_dot (filename : GoString) (h : 0x2E ∈ filename) :
    selectKey true filename = some (suffixLanguage filename) := by
  obtain ⟨pre, ext, rfl, hE⟩ := exists_last_split 0x2E filename h
  have hne : pre ++ 0x2E :: ext ≠ [] := by simp
  have hidx : LastIndexByte (pre ++ 0x2E :: ext) 0x2E = (pre.length : Int) := by
    simp [LastIndexByte, lastIndexAux_split 0x2E pre ext hE]
  have hext : fileExt (pre ++ 0x2E :: ext) = some (ToLower ext) := by
    have e1 : (pre.length : Int) + 1 = ((pre.length + 1 : Nat) : Int) := by push_cast; ring
    rw [fileExt, hidx, e1, sliceFrom_nat _ _ (by simp)]
    simp
  have k1 := dotSuffix_iff pre ext (str "go") hE (by decide)
  have k2 := dotSuffix_iff pre ext (str "c") hE (by decide)
  have k3 := dotSuffix_iff pre ext (str "cob") hE (by decide)
  have k4 := dotSuffix_iff pre ext (str "cbl") hE (by decide)
  have k5 := dotSuffix_iff pre ext (str "cobol") hE (by decide)
  have s1 : str ".go" = 0x2E :: str "go" := by decide
  have s2 : str ".c" = 0x2E :: str "c" := by decide
  have s3 : str ".cob" = 0x2E :: str "cob" := by decide
  have s4 : str ".cbl" = 0x2E :: str "cbl" := by decide
  have s5 : str ".cobol" = 0x2E :: str "cobol" := by decide
  simp only [selectKey, hne, ne_eq, not_false_eq_true, and_self, if_true, hext,
    Option.map_some', Option.some.injEq, languageKey, suffixLanguage, s1, s2, s3, s4, s5,
    k1, k2, k3, k4, k5]

/-- The selection by suffix at work on `main.GO`. -/
theorem selectKey_of_dot_witness :
    0x2E ∈ str "main.GO" ∧ selectKey true (str "main.GO") = some (some (str "go")) :=
  ⟨by decide, selectKey_of_dot (str "main.GO") (by decide)⟩

/-! ## The editor and its current buffer -/

/-- `Editor.handleEditKeys` is `handleEditKeys` on the active buffer, stored
back in its slot; nothing else of the editor changes. -/
theorem Editor.handleEditKeys_active (e : Editor) (w h : Int) (ev : EventKey) (buf : Buffer)
    (hbuf : index e.buffers e.activeBuf = some buf) :
    e.handleEditKeys w h ev
      = (Clicode.handleEditKeys w h ev buf).bind (fun buf1 =>
          (setIndex e.buffers e.activeBuf buf1).map (fun bs => { e with buffers := bs })) := by
  have hne : ¬ len e.buffers = 0 := by
    intro h0
    have : e.buffers = [] := by
      simp only [len] at h0
      exact List.length_eq_zero.mp (by exact_mod_cast h0)
    rw [this] at hbuf
    simp [index] at hbuf
  simp only [Editor.handleEditKeys, Editor.currentBuffer, hne, if_false, hbuf, Option.map_some',
    Option.bind_eq_bind, Option.some_bind, Option.pure_def]
  cases Clicode.handleEditKeys w h ev buf with
  | none => rfl
  | some b1 =>
    simp only [Option.some_bind]
    cases setIndex e.buffers e.activeBuf b1 <;> rfl

end Clicode
